import Mathlib

/-!
Verification of the directive-analysis core of the typescript-plugin-directives
repository: the directive matcher (`matchDirective`), the per-file scanner
(`scanFileDirectives`), the position validator (`checkDirectivePosition`), the
diagnostics pass (`getSemanticDiagnostics`), the two-tier cache
(`getCachedDirectives` / `setCachedDirectives` / `getExportDirective`), the
resolver miss path of imports, the edit-distance function (`levenshteinDistance`)
and the suggestion engine (`findClosestDirectives`).

Statements and bodies of functions are shallow embeddings of the TypeScript
source (packages/plugin/src/ast.ts, diagnostics.ts, hints.ts, hover.ts,
cache.ts).  JavaScript `Map` objects are modelled as association lists with
insert-or-overwrite semantics, strings as Lean `String` (a list of unicode
scalar values, as in JS for the operations used here), and syntax trees as a
small tagged-variant AST covering exactly the node shapes the source
discriminates on.
-/

/-- The JavaScript regular-expression character class `\s` (whitespace),
used by `matchDirective`'s pattern `/^[\s]*[;:][\s]*.+/`. -/
def jsWhitespace (c : Char) : Bool :=
  c = '\t' || c = '\n' || c = '\x0b' || c = '\x0c' || c = '\r' || c = ' ' ||
  c = ' ' || c.val = 0x1680 || (0x2000 ≤ c.val && c.val ≤ 0x200A) ||
  c.val = 0x2028 || c.val = 0x2029 || c.val = 0x202F || c.val = 0x205F ||
  c.val = 0x3000 || c.val = 0xFEFF

/-- JavaScript line terminators, which `.` in a regular expression does not
match. -/
def jsLineTerminator (c : Char) : Bool :=
  c = '\n' || c = '\r' || c.val = 0x2028 || c.val = 0x2029

/-- `rest.match(/^[\s]*[;:][\s]*.+/) !== null`: optional whitespace, then a
`;` or `:` marker, optional whitespace, then at least one character that is
not a line terminator. -/
def matchOptionsRest (rest : List Char) : Bool :=
  match rest.dropWhile jsWhitespace with
  | c :: l2 =>
    if c = ';' || c = ':' then
      match l2.dropWhile jsWhitespace with
      | d :: _ => !(jsLineTerminator d)
      | [] => false
    else false
  | [] => false

/-- ast.ts `matchDirective(text, validDirectives)`: a direct membership test
first; otherwise the first registered directive that is a prefix of `text`
whose remainder is empty or matches the provider/options pattern. -/
def matchDirective (text : String) (validDirectives : List String) : Option String :=
  if text ∈ validDirectives then some text
  else
    validDirectives.findSome? fun directive =>
      if directive.data.isPrefixOf text.data then
        let rest := text.data.drop directive.data.length
        if rest = [] || matchOptionsRest rest then some directive else none
      else none

/-- A directive specification as described by the `DirectiveRegistry`
interface: a name, and whether the registry type for it is not `never`
(i.e. whether it accepts a provider/options suffix). -/
structure DirectiveSpec where
  name : String
  acceptsOptions : Bool

/-- Association-list lookup, modelling JavaScript `Map.prototype.get`
(`none` models `undefined`): the value at the first matching key. -/
def alget {α : Type} : List (String × α) → String → Option α
  | [], _ => none
  | (k1, v1) :: rest, k => if k1 = k then some v1 else alget rest k

/-- Association-list insert-or-overwrite, modelling JavaScript
`Map.prototype.set` (an existing key keeps its position, a new key is
appended). -/
def alset {α : Type} (m : List (String × α)) (k : String) (v : α) : List (String × α) :=
  match m with
  | [] => [(k, v)]
  | (k1, v1) :: rest => if k1 = k then (k, v) :: rest else (k1, v1) :: alset rest k v

/-!
## Syntax tree model

A tagged-variant model of the TypeScript statement/expression shapes the
plugin discriminates on: bare string-literal expression statements, function
declarations (with export/default modifiers, an optional name and an optional
block body), variable statements (with an export modifier and declarations
that have an optional identifier name and optional initializer), export
assignments (`export default <expr>`), named export clauses
(`export { local as exported }`, each element carrying the optional property
name and the exported name), and opaque other statements.  `JStmts` is a
specialized statement list so that all recursions are plainly structural.
-/

mutual

inductive JStmt : Type where
  | strLit (text : String) : JStmt
  | exprOther : JStmt
  | funcDecl (isExported : Bool) (isDefault : Bool) (name : Option String)
      (body : Option JStmts) : JStmt
  | varStmt (isExported : Bool) (decls : JVarDecls) : JStmt
  | exportAssign (expr : JExpr) : JStmt
  | exportClause (elements : List (Option String × String)) : JStmt
  | otherStmt : JStmt

inductive JStmts : Type where
  | nil : JStmts
  | cons (s : JStmt) (rest : JStmts) : JStmts

inductive JExpr : Type where
  | arrow (body : Option JStmts) : JExpr
  | funcExpr (body : Option JStmts) : JExpr
  | otherExpr : JExpr

inductive JVarDecl : Type where
  | mk (name : Option String) (initializer : Option JExpr) : JVarDecl

inductive JVarDecls : Type where
  | nil : JVarDecls
  | cons (d : JVarDecl) (rest : JVarDecls) : JVarDecls

end

/-- Statement list as an ordinary `List`. -/
def JStmts.toList : JStmts → List JStmt
  | .nil => []
  | .cons s rest => s :: rest.toList

/-- Variable declaration list as an ordinary `List`. -/
def JVarDecls.toList : JVarDecls → List JVarDecl
  | .nil => []
  | .cons d rest => d :: rest.toList

/-- ast.ts `getFirstDirective(statements, validDirectives)`: the first
statement, when it is a bare string-literal expression statement, matched
against the vocabulary. -/
def getFirstDirective (statements : JStmts) (validDirectives : List String) : Option String :=
  match statements with
  | .cons (.strLit text) _ => matchDirective text validDirectives
  | _ => none

/-- ast.ts `getTopLevelDirectives(sourceFile, ...)`: a singleton list holding
the module-level directive when the first top-level statement is one. -/
def getTopLevelDirectives (sourceFile : JStmts) (validDirectives : List String) : List String :=
  match getFirstDirective sourceFile validDirectives with
  | some directive => [directive]
  | none => []

/-- ast.ts `getDirectiveOfNode(node, validDirectives)` for expression nodes:
function expressions and arrow functions with a block body yield the first
directive of that body. -/
def getDirectiveOfNode (node : JExpr) (validDirectives : List String) : Option String :=
  match node with
  | .arrow (some body) => getFirstDirective body validDirectives
  | .funcExpr (some body) => getFirstDirective body validDirectives
  | _ => none

/-- ast.ts `getDirectiveOfNode` applied to a function declaration's optional
block body. -/
def getDirectiveOfBody (body : Option JStmts) (validDirectives : List String) : Option String :=
  match body with
  | some b => getFirstDirective b validDirectives
  | none => none

/-- One variable-declaration round of `collectDeclarationDirectives`: a
declaration with an identifier name and an initializer records the
initializer's inline directive, else (when present) the module directive. -/
def collectDeclsSet (moduleDirective : Option String) (validDirectives : List String)
    (acc : List (String × String)) : JVarDecls → List (String × String)
  | .nil => acc
  | .cons (.mk name initializer) rest =>
    let acc1 :=
      match name, initializer with
      | some n, some ini =>
        match getDirectiveOfNode ini validDirectives with
        | some inl => alset acc n inl
        | none =>
          match moduleDirective with
          | some m => alset acc n m
          | none => acc
      | _, _ => acc
    collectDeclsSet moduleDirective validDirectives acc1 rest

/-!
ast.ts `scanFileDirectives` first pass, `collectDeclarationDirectives`:
a pre-order walk over every node recording, per declared name, the inline
directive of the declaration's body when present, otherwise the module
directive.
-/

mutual

def collectStmt (moduleDirective : Option String) (validDirectives : List String)
    (acc : List (String × String)) : JStmt → List (String × String)
  | .funcDecl _ _ name body =>
    let acc1 :=
      match name with
      | some n =>
        match getDirectiveOfBody body validDirectives with
        | some inl => alset acc n inl
        | none =>
          match moduleDirective with
          | some m => alset acc n m
          | none => acc
      | none => acc
    collectBody moduleDirective validDirectives acc1 body
  | .varStmt _ decls =>
    collectDeclsChildren moduleDirective validDirectives
      (collectDeclsSet moduleDirective validDirectives acc decls) decls
  | .exportAssign e => collectExpr moduleDirective validDirectives acc e
  | _ => acc

def collectStmts (moduleDirective : Option String) (validDirectives : List String)
    (acc : List (String × String)) : JStmts → List (String × String)
  | .nil => acc
  | .cons s rest =>
    collectStmts moduleDirective validDirectives
      (collectStmt moduleDirective validDirectives acc s) rest

def collectBody (moduleDirective : Option String) (validDirectives : List String)
    (acc : List (String × String)) : Option JStmts → List (String × String)
  | some b => collectStmts moduleDirective validDirectives acc b
  | none => acc

def collectExpr (moduleDirective : Option String) (validDirectives : List String)
    (acc : List (String × String)) : JExpr → List (String × String)
  | .arrow body => collectBody moduleDirective validDirectives acc body
  | .funcExpr body => collectBody moduleDirective validDirectives acc body
  | .otherExpr => acc

def collectDeclsChildren (moduleDirective : Option String) (validDirectives : List String)
    (acc : List (String × String)) : JVarDecls → List (String × String)
  | .nil => acc
  | .cons (.mk _ initializer) rest =>
    let acc1 :=
      match initializer with
      | some ini => collectExpr moduleDirective validDirectives acc ini
      | none => acc
    collectDeclsChildren moduleDirective validDirectives acc1 rest

end

/-- Second-pass handling of the declarations of an exported variable
statement: any declaration with an identifier name whose collected directive
exists is published under that name. -/
def visitDeclsSet (declarationDirectives : List (String × String))
    (acc : List (String × String)) : JVarDecls → List (String × String)
  | .nil => acc
  | .cons (.mk name _) rest =>
    let acc1 :=
      match name with
      | some n =>
        match alget declarationDirectives n with
        | some d => alset acc n d
        | none => acc
      | none => acc
    visitDeclsSet declarationDirectives acc1 rest

/-- Second-pass handling of a named export clause
(`export { local as exported }`): the collected directive of the local name,
when present, is published under the exported name. -/
def visitClause (declarationDirectives : List (String × String))
    (acc : List (String × String)) : List (Option String × String) → List (String × String)
  | [] => acc
  | (propertyName, name) :: rest =>
    let localName := match propertyName with | some p => p | none => name
    let acc1 :=
      match alget declarationDirectives localName with
      | some d => alset acc name d
      | none => acc
    visitClause declarationDirectives acc1 rest

/-!
ast.ts `scanFileDirectives` second pass (`visit`): exported function
declarations and exported variable declarations publish their collected
directive under their own name (default-exported functions additionally under
`"default"`); `export default <expr>` publishes the expression's inline
directive, else the module directive, under `"default"`; named export clauses
publish the local name's collected directive under the exported name.
-/

mutual

def visitStmt (moduleDirective : Option String) (validDirectives : List String)
    (declarationDirectives : List (String × String))
    (acc : List (String × String)) : JStmt → List (String × String)
  | .funcDecl isExported isDefault name body =>
    let acc1 :=
      match name with
      | some n =>
        if isExported then
          match alget declarationDirectives n with
          | some d =>
            let a2 := alset acc n d
            if isDefault then alset a2 "default" d else a2
          | none => acc
        else acc
      | none => acc
    visitBody moduleDirective validDirectives declarationDirectives acc1 body
  | .varStmt isExported decls =>
    let acc1 := if isExported then visitDeclsSet declarationDirectives acc decls else acc
    visitDeclsChildren moduleDirective validDirectives declarationDirectives acc1 decls
  | .exportAssign e =>
    let acc1 :=
      match getDirectiveOfNode e validDirectives with
      | some inl => alset acc "default" inl
      | none =>
        match moduleDirective with
        | some m => alset acc "default" m
        | none => acc
    visitExprChildren moduleDirective validDirectives declarationDirectives acc1 e
  | .exportClause elements => visitClause declarationDirectives acc elements
  | _ => acc

def visitStmts (moduleDirective : Option String) (validDirectives : List String)
    (declarationDirectives : List (String × String))
    (acc : List (String × String)) : JStmts → List (String × String)
  | .nil => acc
  | .cons s rest =>
    visitStmts moduleDirective validDirectives declarationDirectives
      (visitStmt moduleDirective validDirectives declarationDirectives acc s) rest

def visitBody (moduleDirective : Option String) (validDirectives : List String)
    (declarationDirectives : List (String × String))
    (acc : List (String × String)) : Option JStmts → List (String × String)
  | some b => visitStmts moduleDirective validDirectives declarationDirectives acc b
  | none => acc

def visitExprChildren (moduleDirective : Option String) (validDirectives : List String)
    (declarationDirectives : List (String × String))
    (acc : List (String × String)) : JExpr → List (String × String)
  | .arrow body => visitBody moduleDirective validDirectives declarationDirectives acc body
  | .funcExpr body => visitBody moduleDirective validDirectives declarationDirectives acc body
  | .otherExpr => acc

def visitDeclsChildren (moduleDirective : Option String) (validDirectives : List String)
    (declarationDirectives : List (String × String))
    (acc : List (String × String)) : JVarDecls → List (String × String)
  | .nil => acc
  | .cons (.mk _ initializer) rest =>
    let acc1 :=
      match initializer with
      | some ini => visitExprChildren moduleDirective validDirectives declarationDirectives acc ini
      | none => acc
    visitDeclsChildren moduleDirective validDirectives declarationDirectives acc1 rest

end

/-- Result of `scanFileDirectives`. -/
structure ScanResult where
  moduleDirectives : List String
  exportDirectives : List (String × String)
deriving DecidableEq

/-- ast.ts `scanFileDirectives(sourceFile, program, ts)`: the module-level
directive list, a first pass collecting per-name directives from every
declaration, and a second pass publishing those of exported declarations. -/
def scanFileDirectives (validDirectives : List String) (sourceFile : JStmts) : ScanResult :=
  let moduleDirectives := getTopLevelDirectives sourceFile validDirectives
  let moduleDirective : Option String :=
    match moduleDirectives with
    | d :: _ => some d
    | [] => none
  let declarationDirectives := collectStmts moduleDirective validDirectives [] sourceFile
  let exportDirectives := visitStmts moduleDirective validDirectives declarationDirectives [] sourceFile
  ⟨moduleDirectives, exportDirectives⟩

/-!
## Name collectors

Analysis-level collectors used to phrase the scanner theorems: `declNames*`
lists every local name the first pass records a directive for (in traversal
order), and `exportedNames*` over-approximates the keys the second pass can
publish (exported declaration names, the reserved `"default"` key, and
exported names of export clauses).
-/

/-- Identifier names of a variable declaration list (used for exported
variable statements, where the second pass does not require an
initializer). -/
def varDeclNames : JVarDecls → List String
  | .nil => []
  | .cons (.mk name _) rest =>
    (match name with | some n => [n] | none => []) ++ varDeclNames rest

/-- Names the first pass records directly at a variable declaration list
(identifier name together with an initializer). -/
def declSetNames : JVarDecls → List String
  | .nil => []
  | .cons (.mk name initializer) rest =>
    (match name, initializer with | some n, some _ => [n] | _, _ => []) ++
    declSetNames rest

/-- An expression that is a function or arrow function. -/
def isFunctionLike : JExpr → Bool
  | .arrow _ => true
  | .funcExpr _ => true
  | .otherExpr => false

mutual

def declNamesStmt : JStmt → List String
  | .funcDecl _ _ name body =>
    (match name with | some n => [n] | none => []) ++ declNamesBody body
  | .varStmt _ decls => declSetNames decls ++ declInitNames decls
  | .exportAssign e => declNamesExpr e
  | _ => []

def declNamesStmts : JStmts → List String
  | .nil => []
  | .cons s rest => declNamesStmt s ++ declNamesStmts rest

def declNamesBody : Option JStmts → List String
  | some b => declNamesStmts b
  | none => []

def declNamesExpr : JExpr → List String
  | .arrow body => declNamesBody body
  | .funcExpr body => declNamesBody body
  | .otherExpr => []

def declInitNames : JVarDecls → List String
  | .nil => []
  | .cons (.mk _ initializer) rest =>
    (match initializer with | some ini => declNamesExpr ini | none => []) ++
    declInitNames rest

end

mutual

def exportedNamesStmt : JStmt → List String
  | .funcDecl isExported isDefault name body =>
    (match name with
     | some n =>
       if isExported then n :: (if isDefault then ["default"] else []) else []
     | none => []) ++ exportedNamesBody body
  | .varStmt isExported decls =>
    (if isExported then varDeclNames decls else []) ++ exportedNamesDecls decls
  | .exportAssign e => "default" :: exportedNamesExpr e
  | .exportClause elements => elements.map (fun p => p.2)
  | _ => []

def exportedNamesStmts : JStmts → List String
  | .nil => []
  | .cons s rest => exportedNamesStmt s ++ exportedNamesStmts rest

def exportedNamesBody : Option JStmts → List String
  | some b => exportedNamesStmts b
  | none => []

def exportedNamesExpr : JExpr → List String
  | .arrow body => exportedNamesBody body
  | .funcExpr body => exportedNamesBody body
  | .otherExpr => []

def exportedNamesDecls : JVarDecls → List String
  | .nil => []
  | .cons (.mk _ initializer) rest =>
    (match initializer with | some ini => exportedNamesExpr ini | none => []) ++
    exportedNamesDecls rest

end

/-!
## Diagnostics pass

diagnostics.ts `getSemanticDiagnostics` with its inner `checkDirectivePosition`
and `checkDirective`.  The external type-checker test
(`typeChecker.isTypeAssignableTo(literalType, directiveType)`) is modelled as
an oracle `Option (String → Bool)` (`none` when the `Directive` type alias
cannot be resolved, in which case the source falls back to `matchDirective`).
A diagnostic is modelled structurally as its error code (99001 for an invalid
directive, 99002 for a misplaced one), the enclosing scope kind that selects
between the "module body" and "function body" messages, the statement's index
in its sequence (standing for the source position), and the literal text; the
English message string built from these data is presentation formatting and is
not modelled.
-/

/-- `text.startsWith("use ")`, the guard both checks share. -/
def hasUsePrefix (t : String) : Bool := "use ".data.isPrefixOf t.data

/-- A statement that is a directive-like string literal: an expression
statement whose expression is a string literal with text starting `"use "`. -/
def dirLike : JStmt → Bool
  | .strLit t => hasUsePrefix t
  | _ => false

/-- A structural model of a `ts.Diagnostic` produced by the pass. -/
structure JDiag where
  code : Nat
  moduleScope : Bool
  idx : Nat
  text : String
deriving DecidableEq

/-- diagnostics.ts `checkDirectivePosition(node, parentStatement)` for the
statement at index `k` of its sequence: a string literal starting with
`"use "` is flagged (code 99002, tagged with the enclosing scope kind) unless
all previous sibling statements are directive-like string literals. -/
def checkDirectivePosition (moduleScope : Bool) (statements : List JStmt) (k : Nat) : Option JDiag :=
  match statements[k]? with
  | some (.strLit text) =>
    if !(hasUsePrefix text) then none
    else if (statements.take k).all dirLike then none
    else some ⟨99002, moduleScope, k, text⟩
  | _ => none

/-- diagnostics.ts `checkDirective(node)`, as the decision whether a
diagnostic (code 99001) is emitted for the literal `text`: strings not
starting with `"use "` are never flagged; with a resolved `Directive` type the
assignability oracle decides; otherwise the `matchDirective` fallback
decides. -/
def checkDirective (directiveType : Option (String → Bool)) (validDirectives : List String)
    (text : String) : Bool :=
  if !(hasUsePrefix text) then false
  else
    match directiveType with
    | some assignable => !(assignable text)
    | none => (matchDirective text validDirectives).isNone

/-- The inputs of the diagnostics pass that stand for the type-system
environment: the vocabulary and the optional assignability oracle. -/
structure DiagCtx where
  validDirectives : List String
  directiveType : Option (String → Bool)

mutual

def diagStmts (ctx : DiagCtx) (moduleScope : Bool) (done : List JStmt) : JStmts → List JDiag
  | .nil => []
  | .cons s rest =>
    let here :=
      match s with
      | .strLit t =>
        (checkDirectivePosition moduleScope (done ++ JStmt.strLit t :: rest.toList) done.length).toList ++
        (if checkDirective ctx.directiveType ctx.validDirectives t then
          [⟨99001, moduleScope, done.length, t⟩] else [])
      | _ => []
    here ++ diagChildren ctx s ++ diagStmts ctx moduleScope (done ++ [s]) rest

def diagChildren (ctx : DiagCtx) : JStmt → List JDiag
  | .funcDecl _ _ _ body => diagBody ctx body
  | .varStmt _ decls => diagDecls ctx decls
  | .exportAssign e => diagExpr ctx e
  | _ => []

def diagBody (ctx : DiagCtx) : Option JStmts → List JDiag
  | some b => diagStmts ctx false [] b
  | none => []

def diagExpr (ctx : DiagCtx) : JExpr → List JDiag
  | .arrow body => diagBody ctx body
  | .funcExpr body => diagBody ctx body
  | .otherExpr => []

def diagDecls (ctx : DiagCtx) : JVarDecls → List JDiag
  | .nil => []
  | .cons (.mk _ initializer) rest =>
    (match initializer with | some ini => diagExpr ctx ini | none => []) ++
    diagDecls ctx rest

end

/-- diagnostics.ts `getSemanticDiagnostics(fileName, languageService, ts,
prior)`: the prior diagnostics unchanged when the vocabulary is empty (also
the model of a throwing vocabulary provider, which the source catches into an
empty list), otherwise the prior diagnostics followed by the visit's
directive diagnostics. -/
def getSemanticDiagnostics (ctx : DiagCtx) (prior : List JDiag) (sourceFile : JStmts) : List JDiag :=
  if ctx.validDirectives.isEmpty then prior
  else prior ++ diagStmts ctx true [] sourceFile

/-!
## Two-tier cache and resolver miss path

cache.ts: a per-file cache from source-file identity to the scan result
stamped with the file's content-version token and the schema version, and a
global export map keyed by `normalizedFilePath::exportName`.  The WeakMap
keyed by `ts.SourceFile` object is modelled as an association list keyed by
the file name (one live source-file object per file).
-/

/-- cache.ts `CACHE_SCHEMA_VERSION`. -/
def CACHE_SCHEMA_VERSION : Nat := 2

/-- cache.ts `CachedDirectiveData`. -/
structure CachedDirectiveData where
  moduleDirectives : List String
  exportDirectives : List (String × String)
  version : Nat
  schemaVersion : Nat
deriving DecidableEq

/-- A source file as the cache and scanner see it: its identity (file name),
its current content-version token, and its statements. -/
structure JSourceFile where
  fileName : String
  version : Nat
  stmts : JStmts

/-- cache.ts `getCachedDirectives(sourceFile)`: the stored data only when
both the schema version and the content-version token match; any mismatch or
absent entry is a miss. -/
def getCachedDirectives (fileCache : List (String × CachedDirectiveData))
    (sourceFile : JSourceFile) : Option (List String × List (String × String)) :=
  match alget fileCache sourceFile.fileName with
  | none => none
  | some cached =>
    if cached.schemaVersion ≠ CACHE_SCHEMA_VERSION then none
    else if cached.version ≠ sourceFile.version then none
    else some (cached.moduleDirectives, cached.exportDirectives)

/-- cache.ts `setCachedDirectives(sourceFile, moduleDirectives,
exportDirectives)`: always overwrites, stamping the file's current version
and the current schema version. -/
def setCachedDirectives (fileCache : List (String × CachedDirectiveData))
    (sourceFile : JSourceFile) (moduleDirectives : List String)
    (exportDirectives : List (String × String)) : List (String × CachedDirectiveData) :=
  alset fileCache sourceFile.fileName
    ⟨moduleDirectives, exportDirectives, sourceFile.version, CACHE_SCHEMA_VERSION⟩

/-- cache.ts `normalizeFilePath`: backslashes become forward slashes. -/
def normalizeFilePath (fileName : String) : String :=
  ⟨fileName.data.map fun c => if c = '\\' then '/' else c⟩

/-- cache.ts `setExportDirective(fileName, exportName, directive)`. -/
def setExportDirective (exportMap : List (String × String))
    (fileName exportName directive : String) : List (String × String) :=
  alset exportMap (normalizeFilePath fileName ++ "::" ++ exportName) directive

/-- cache.ts `getExportDirective(fileName, exportName)`. -/
def getExportDirective (exportMap : List (String × String))
    (fileName exportName : String) : Option String :=
  alget exportMap (normalizeFilePath fileName ++ "::" ++ exportName)

/-- The two mutable stores of the plugin. -/
structure PluginState where
  fileCache : List (String × CachedDirectiveData)
  exportMap : List (String × String)

/-- The import-resolution miss path shared by hints.ts `addImportHints`,
`addCallExpressionHints`, `addJsxElementHints`, `addJsxAttributeHints` and
hover.ts `getImportDirective`, for an already-resolved module identity:
query the export map; on a miss, scan the resolved module's source file (when
the program has it), store the scan result in the per-file cache via
`setCachedDirectives`, and take the directive from the scan result's
`exportDirectives`.  The world is the program's source files. -/
def resolveImportedDirective (validDirectives : List String) (world : List JSourceFile)
    (st : PluginState) (resolvedModule : String) (exportedName : String) :
    Option String × PluginState :=
  match getExportDirective st.exportMap resolvedModule exportedName with
  | some directive => (some directive, st)
  | none =>
    match world.find? (fun sf => sf.fileName == resolvedModule) with
    | some importedSourceFile =>
      let scanned := scanFileDirectives validDirectives importedSourceFile.stmts
      (alget scanned.exportDirectives exportedName,
       ⟨setCachedDirectives st.fileCache importedSourceFile
          scanned.moduleDirectives scanned.exportDirectives,
        st.exportMap⟩)
    | none => (none, st)

/-!
## Edit distance

diagnostics.ts `levenshteinDistance(a, b)` fills a `(b.length+1) ×
(a.length+1)` matrix with `matrix[i][j] = ` the edit distance between the
first `j` characters of `a` and the first `i` characters of `b`, and returns
`matrix[b.length][a.length]`.  `levCell a b i j` is the contents of that
matrix cell, defined by the source's recurrence (each cell depends only on
already-filled cells).  `levAux` is the standard head-recursive edit distance
used to reason about the matrix.
-/

def levAux {α : Type} [DecidableEq α] : List α → List α → Nat
  | [], ys => ys.length
  | xs, [] => xs.length
  | x :: xs, y :: ys =>
    if x = y then levAux xs ys
    else min (min (levAux xs ys) (levAux (x :: xs) ys)) (levAux xs (y :: ys)) + 1
termination_by xs ys => xs.length + ys.length

/-- The matrix cell `matrix[i][j]` of diagnostics.ts `levenshteinDistance`:
row 0 and column 0 are the index, and otherwise the source's recurrence with
`b.charAt(i-1) === a.charAt(j-1)` as the character test and
`Math.min(substitution, insertion, deletion)`. -/
def levCell (a b : List Char) : Nat → Nat → Nat
  | 0, j => j
  | i + 1, 0 => i + 1
  | i + 1, j + 1 =>
    if b[i]? = a[j]? then levCell a b i j
    else min (min (levCell a b i j + 1) (levCell a b (i + 1) j + 1)) (levCell a b i (j + 1) + 1)

/-- diagnostics.ts `levenshteinDistance(a, b) = matrix[b.length][a.length]`. -/
def levenshteinDistance (a b : String) : Nat :=
  levCell a.data b.data b.data.length a.data.length

/-!
## Suggestion engine

diagnostics.ts `findClosestDirectives(input, validDirectives,
maxSuggestions)` (the source defaults `maxSuggestions` to 3).  The JavaScript
`Array.prototype.sort` with comparator `(a, b) => a.distance - b.distance` is
a stable ascending sort by distance (stable per the ECMAScript
specification); any stable comparison sort computes the same list, and it is
modelled as a stable insertion sort.  The threshold
`Math.max(2, Math.min(3, Math.ceil(input.length * 0.2)))` is modelled with
exact rational arithmetic: for every natural `n`, the double rounding in
`n * 0.2` is strictly below a half ulp (the stored `0.2` has relative error
exactly `2 ^ (-54)`), so `Math.ceil(n * 0.2)` equals the exact `⌈n / 5⌉ =
(n + 4) / 5` in natural division. -/

/-- Insert into a distance-sorted list, before the first element of equal or
greater distance (so that earlier-vocabulary entries of equal distance stay
first). -/
def insertD (x : String × Nat) : List (String × Nat) → List (String × Nat)
  | [] => [x]
  | y :: ys => if x.2 ≤ y.2 then x :: y :: ys else y :: insertD x ys

/-- Stable ascending sort by distance. -/
def sortD : List (String × Nat) → List (String × Nat)
  | [] => []
  | x :: xs => insertD x (sortD xs)

/-- diagnostics.ts `findClosestDirectives`: distances to every vocabulary
name, sorted ascending (stably), filtered by the adaptive threshold,
truncated to `maxSuggestions`. -/
def findClosestDirectives (input : String) (validDirectives : List String)
    (maxSuggestions : Nat) : List String :=
  let distances := validDirectives.map fun directive =>
    (directive, levenshteinDistance input directive)
  let sorted := sortD distances
  let maxDistance := max 2 (min 3 ((input.length + 4) / 5))
  ((sorted.filter fun d => d.2 ≤ maxDistance).take maxSuggestions).map fun d => d.1

/-!
## Concrete scenario inputs
-/

/-- The module `"use server"; export function addTodo(x) {}
export function deleteTodo(y) {}`. -/
def demoInheritModule : JStmts :=
  .cons (.strLit "use server")
    (.cons (.funcDecl true false (some "addTodo") (some .nil))
      (.cons (.funcDecl true false (some "deleteTodo") (some .nil)) .nil))

/-- The module `"use server"; export function f() {}
function g() { const f = () => { "use client"; }; }`: the nested `f` shadows
the exported one in the scanner's flat per-name map. -/
def demoShadowModule : JStmts :=
  .cons (.strLit "use server")
    (.cons (.funcDecl true false (some "f") (some .nil))
      (.cons
        (.funcDecl false false (some "g")
          (some (.cons
            (.varStmt false
              (.cons
                (.mk (some "f")
                  (some (.arrow (some (.cons (.strLit "use client") .nil)))))
                .nil))
            .nil)))
        .nil))

/-- The module `const x = 1; "use server";`. -/
def demoMisplacedModule : JStmts :=
  .cons (.varStmt false (.cons (.mk (some "x") (some .otherExpr)) .nil))
    (.cons (.strLit "use server") .nil)

/-- The module `"use server"; export function f() {}`. -/
def demoServerModule : JStmts :=
  .cons (.strLit "use server") (.cons (.funcDecl true false (some "f") (some .nil)) .nil)

/-- A one-file program whose `a.ts` is `demoServerModule`. -/
def demoWorld : List JSourceFile := [⟨"a.ts", 1, demoServerModule⟩]

/-- A vocabulary whose single entry does not accept options (its
`DirectiveRegistry` value type is `never`). -/
def demoVocabulary : List DirectiveSpec := [⟨"use server", false⟩]
theorem alget_alset_self {α : Type} (m : List (String × α)) (k : String) (v : α) :
    alget (alset m k v) k = some v := by
  induction m with
  | nil => simp [alget, alset]
  | cons p rest ih =>
    obtain ⟨k1, v1⟩ := p
    by_cases h : k1 = k
    · simp [alset, h, alget]
    · simpa [alset, if_neg h, alget, h] using ih

theorem alget_alset_ne {α : Type} (m : List (String × α)) (k k2 : String) (v : α)
    (h : k2 ≠ k) : alget (alset m k v) k2 = alget m k2 := by
  induction m with
  | nil => simp [alget, alset, Ne.symm h]
  | cons p rest ih =>
    obtain ⟨k1, v1⟩ := p
    by_cases hk : k1 = k
    · subst hk
      simp [alset, alget, Ne.symm h]
    · by_cases hk2 : k1 = k2
      · subst hk2
        simp [alset, if_neg hk, alget]
      · simpa [alset, if_neg hk, alget, hk2] using ih

theorem findSome?_isSome_of_mem {α β : Type} {f : α → Option β} {l : List α} {x : α} {y : β}
    (hx : x ∈ l) (hf : f x = some y) : (l.findSome? f).isSome := by
  induction l with
  | nil => cases hx
  | cons a l ih =>
    rw [List.findSome?_cons]
    cases ha : f a with
    | some b => simp
    | none =>
      rcases List.mem_cons.mp hx with rfl | hx2
      · rw [ha] at hf; cases hf
      · exact ih hx2

/-- Claim C9: a directive name contained in the vocabulary matches itself:
`matchDirective d vocabulary = some d`. -/
theorem matchDirective_self_match (d : String) (vocabulary : List String)
    (h : d ∈ vocabulary) : matchDirective d vocabulary = some d := by
  simp [matchDirective, h]

theorem matchDirective_self_match_witness :
    "use server" ∈ ["use server", "use client"] ∧
    matchDirective "use server" ["use server", "use client"] = some "use server" :=
  ⟨by decide, matchDirective_self_match "use server" ["use server", "use client"] (by decide)⟩

/-- Claim C1 counterexample: `"use server"` is in the vocabulary with
`acceptsOptions = false`, yet matching `"use server" ++ "; x=1"` against the
vocabulary names succeeds with `some "use server"` rather than `none`:
`matchDirective` never consults the options flag (the flag is only enforced by
the diagnostics layer through `directiveSupportsOptions`). -/
theorem matchDirective_options_counterexample :
    (⟨"use server", false⟩ : DirectiveSpec) ∈ demoVocabulary ∧
    matchDirective ("use server" ++ "; x=1") (demoVocabulary.map DirectiveSpec.name) =
      some "use server" := by
  constructor
  · simp [demoVocabulary]
  · decide

/-- Claim C1 (amended): appending `"; x=1"` to a vocabulary name whose
`acceptsOptions` flag is false still yields a successful match (`isSome`)
rather than `none`; the matcher accepts the provider/options pattern for
every vocabulary name regardless of the flag. -/
theorem matchDirective_options_isSome (specs : List DirectiveSpec) (s : DirectiveSpec)
    (hmem : s ∈ specs) (_hopt : s.acceptsOptions = false) :
    (matchDirective (s.name ++ "; x=1") (specs.map DirectiveSpec.name)).isSome := by
  by_cases hin : (s.name ++ "; x=1") ∈ specs.map DirectiveSpec.name
  · simp [matchDirective, hin]
  · rw [matchDirective, if_neg hin]
    have hname : s.name ∈ specs.map DirectiveSpec.name := List.mem_map_of_mem _ hmem
    have hpre : s.name.data.isPrefixOf (s.name ++ "; x=1").data = true := by
      rw [String.data_append, List.isPrefixOf_iff_prefix]
      exact List.prefix_append _ _
    have hdrop : (s.name ++ "; x=1").data.drop s.name.data.length = "; x=1".data := by
      rw [String.data_append, List.drop_left]
    have hrest : matchOptionsRest "; x=1".data = true := by decide
    refine @findSome?_isSome_of_mem String String _ _ s.name s.name hname ?_
    rw [if_pos hpre]
    simp only [hdrop, hrest, Bool.or_true, if_pos]

theorem matchDirective_options_isSome_witness :
    (⟨"use server", false⟩ : DirectiveSpec) ∈ demoVocabulary ∧
    (matchDirective ("use server" ++ "; x=1") (demoVocabulary.map DirectiveSpec.name)).isSome :=
  ⟨by simp [demoVocabulary],
   matchDirective_options_isSome demoVocabulary ⟨"use server", false⟩
     (by simp [demoVocabulary]) rfl⟩

/-- Claim C5: the per-file cache lookup returns the stored scan result
exactly when both the stored schema version equals the current schema version
and the stored content-version token equals the file's current token; every
other case (including no entry) is a miss, and a set always overwrites the
entry for that file. -/
theorem cache_versioned_roundtrip (fileCache : List (String × CachedDirectiveData))
    (sourceFile : JSourceFile) :
    (∀ r, getCachedDirectives fileCache sourceFile = some r ↔
      ∃ cached, alget fileCache sourceFile.fileName = some cached ∧
        cached.schemaVersion = CACHE_SCHEMA_VERSION ∧
        cached.version = sourceFile.version ∧
        r = (cached.moduleDirectives, cached.exportDirectives))
    ∧ (getCachedDirectives fileCache sourceFile = none ↔
      ¬ ∃ cached, alget fileCache sourceFile.fileName = some cached ∧
        cached.schemaVersion = CACHE_SCHEMA_VERSION ∧
        cached.version = sourceFile.version)
    ∧ ∀ moduleDirectives exportDirectives,
      alget (setCachedDirectives fileCache sourceFile moduleDirectives exportDirectives)
          sourceFile.fileName =
        some ⟨moduleDirectives, exportDirectives, sourceFile.version, CACHE_SCHEMA_VERSION⟩ := by
  refine ⟨?_, ?_, ?_⟩
  · intro r
    unfold getCachedDirectives
    cases halget : alget fileCache sourceFile.fileName with
    | none => simp
    | some cached =>
      by_cases hs : cached.schemaVersion = CACHE_SCHEMA_VERSION
      · by_cases hv : cached.version = sourceFile.version
        · simp [hs, hv, eq_comm]
        · simp [hs, hv]
      · simp [hs]
  · unfold getCachedDirectives
    cases halget : alget fileCache sourceFile.fileName with
    | none => simp
    | some cached =>
      by_cases hs : cached.schemaVersion = CACHE_SCHEMA_VERSION
      · by_cases hv : cached.version = sourceFile.version
        · simp [hs, hv]
        · simp [hs, hv]
      · simp [hs]
  · intro moduleDirectives exportDirectives
    exact alget_alset_self _ _ _

theorem cache_versioned_roundtrip_witness :
    getCachedDirectives [("a.ts", ⟨["use server"], [("f", "use server")], 1, 2⟩)]
      ⟨"a.ts", 1, demoServerModule⟩ = some (["use server"], [("f", "use server")]) :=
  ((cache_versioned_roundtrip _ _).1 _).mpr ⟨⟨["use server"], [("f", "use server")], 1, 2⟩, rfl, rfl, rfl, rfl⟩

/-- The per-file cache returns exactly what a set stored for the same file
and version. -/
theorem getCachedDirectives_setCachedDirectives
    (fileCache : List (String × CachedDirectiveData)) (sourceFile : JSourceFile)
    (moduleDirectives : List String) (exportDirectives : List (String × String)) :
    getCachedDirectives (setCachedDirectives fileCache sourceFile moduleDirectives exportDirectives)
      sourceFile = some (moduleDirectives, exportDirectives) := by
  unfold getCachedDirectives setCachedDirectives
  rw [alget_alset_self]
  simp

/-- Claim C2 counterexample: resolving `f` from `a.ts` with an empty export
index takes the miss path, scans `a.ts` (whose scan yields
`f ↦ "use server"`) and returns that directive, yet afterwards the export
index still has no entry for `(a.ts, f)`: the miss path populates only the
per-file cache, not the ExportIndex. -/
theorem resolver_miss_counterexample :
    (resolveImportedDirective ["use server"] demoWorld ⟨[], []⟩ "a.ts" "f").1 =
      some "use server" ∧
    alget (scanFileDirectives ["use server"] demoServerModule).exportDirectives "f" =
      some "use server" ∧
    getExportDirective
      (resolveImportedDirective ["use server"] demoWorld ⟨[], []⟩ "a.ts" "f").2.exportMap
      "a.ts" "f" = none := by
  refine ⟨?_, ?_, ?_⟩ <;> decide

/-- Claim C2 (amended): on an export-index miss for a resolved module the
program has, the resolver scans that module, returns the scanned module's
directive for the requested export name, and stores the scan result in the
per-file cache — while the ExportIndex itself is left unchanged (it is
populated separately, by the plugin's `ensureFileScanned`). -/
theorem resolver_miss_behavior (validDirectives : List String) (world : List JSourceFile)
    (st : PluginState) (resolvedModule exportedName : String) (sf : JSourceFile)
    (hmiss : getExportDirective st.exportMap resolvedModule exportedName = none)
    (hfind : world.find? (fun f => f.fileName == resolvedModule) = some sf) :
    (resolveImportedDirective validDirectives world st resolvedModule exportedName).1 =
      alget (scanFileDirectives validDirectives sf.stmts).exportDirectives exportedName ∧
    getCachedDirectives
        (resolveImportedDirective validDirectives world st resolvedModule exportedName).2.fileCache
        sf =
      some ((scanFileDirectives validDirectives sf.stmts).moduleDirectives,
        (scanFileDirectives validDirectives sf.stmts).exportDirectives) ∧
    (resolveImportedDirective validDirectives world st resolvedModule exportedName).2.exportMap =
      st.exportMap := by
  unfold resolveImportedDirective
  rw [hmiss, hfind]
  exact ⟨rfl, getCachedDirectives_setCachedDirectives _ _ _ _, rfl⟩

theorem resolver_miss_behavior_witness :
    (resolveImportedDirective ["use server"] demoWorld ⟨[], []⟩ "a.ts" "f").1 =
      alget (scanFileDirectives ["use server"] demoServerModule).exportDirectives "f" ∧
    (resolveImportedDirective ["use server"] demoWorld ⟨[], []⟩ "a.ts" "f").2.exportMap = [] :=
  ⟨(resolver_miss_behavior ["use server"] demoWorld ⟨[], []⟩ "a.ts" "f"
      ⟨"a.ts", 1, demoServerModule⟩ rfl rfl).1,
   (resolver_miss_behavior ["use server"] demoWorld ⟨[], []⟩ "a.ts" "f"
      ⟨"a.ts", 1, demoServerModule⟩ rfl rfl).2.2⟩

/-- Claim C7: with an empty vocabulary (also the model of a throwing
vocabulary provider, caught into an empty list) the diagnostics pass returns
exactly the prior diagnostics, flagging nothing. -/
theorem getSemanticDiagnostics_empty_vocabulary (ctx : DiagCtx) (prior : List JDiag)
    (sourceFile : JStmts) (h : ctx.validDirectives = []) :
    getSemanticDiagnostics ctx prior sourceFile = prior := by
  unfold getSemanticDiagnostics
  rw [h]
  rfl

theorem getSemanticDiagnostics_empty_vocabulary_witness :
    getSemanticDiagnostics ⟨[], none⟩ [⟨7, false, 0, "x"⟩] demoMisplacedModule =
      [⟨7, false, 0, "x"⟩] :=
  getSemanticDiagnostics_empty_vocabulary ⟨[], none⟩ [⟨7, false, 0, "x"⟩]
    demoMisplacedModule rfl

/-- A position diagnostic is only produced for text starting `"use "`. -/
theorem checkDirectivePosition_use {moduleScope : Bool} {statements : List JStmt}
    {k : Nat} {d : JDiag} (h : checkDirectivePosition moduleScope statements k = some d) :
    hasUsePrefix d.text = true := by
  unfold checkDirectivePosition at h
  split at h
  · rename_i text _
    split at h
    · cases h
    · split at h
      · cases h
      · cases h
        rename_i huse _
        simpa using huse
  · cases h

/-- An invalid-directive diagnostic is only produced for text starting
`"use "`. -/
theorem checkDirective_use {directiveType : Option (String → Bool)}
    {validDirectives : List String} {text : String}
    (h : checkDirective directiveType validDirectives text = true) :
    hasUsePrefix text = true := by
  unfold checkDirective at h
  split at h
  · cases h
  · rename_i huse
    simpa using huse

mutual

theorem diagStmts_use (ctx : DiagCtx) :
    ∀ (moduleScope : Bool) (done : List JStmt) (stmts : JStmts) (d : JDiag),
      d ∈ diagStmts ctx moduleScope done stmts → hasUsePrefix d.text = true
  | moduleScope, done, .nil, d, h => by cases h
  | moduleScope, done, .cons (.strLit t) rest, d, h => by
    have h0 : d ∈
        ((checkDirectivePosition moduleScope (done ++ JStmt.strLit t :: rest.toList)
            done.length).toList ++
          (if checkDirective ctx.directiveType ctx.validDirectives t then
            [⟨99001, moduleScope, done.length, t⟩] else [])) ++
        diagChildren ctx (JStmt.strLit t) ++
        diagStmts ctx moduleScope (done ++ [JStmt.strLit t]) rest := h
    rcases List.mem_append.mp h0 with h12 | h3
    · rcases List.mem_append.mp h12 with h1 | h2
      · rcases List.mem_append.mp h1 with hpos | hdir
        · exact checkDirectivePosition_use (Option.mem_def.mp (Option.mem_toList.mp hpos))
        · cases hcd : checkDirective ctx.directiveType ctx.validDirectives t with
          | true =>
            rw [hcd] at hdir
            simp only [if_pos] at hdir
            rcases List.mem_singleton.mp hdir with rfl
            exact checkDirective_use hcd
          | false =>
            rw [hcd] at hdir
            simp at hdir
      · exact diagChildren_use ctx (JStmt.strLit t) d h2
    · exact diagStmts_use ctx moduleScope (done ++ [JStmt.strLit t]) rest d h3
  | moduleScope, done, .cons .exprOther rest, d, h => by
    have h0 : d ∈ ([] : List JDiag) ++ diagChildren ctx JStmt.exprOther ++
        diagStmts ctx moduleScope (done ++ [JStmt.exprOther]) rest := h
    rcases List.mem_append.mp h0 with h12 | h3
    · rcases List.mem_append.mp h12 with h1 | h2
      · cases h1
      · exact diagChildren_use ctx JStmt.exprOther d h2
    · exact diagStmts_use ctx moduleScope (done ++ [JStmt.exprOther]) rest d h3
  | moduleScope, done, .cons (.funcDecl a b c bd) rest, d, h => by
    have h0 : d ∈ ([] : List JDiag) ++ diagChildren ctx (JStmt.funcDecl a b c bd) ++
        diagStmts ctx moduleScope (done ++ [JStmt.funcDecl a b c bd]) rest := h
    rcases List.mem_append.mp h0 with h12 | h3
    · rcases List.mem_append.mp h12 with h1 | h2
      · cases h1
      · exact diagChildren_use ctx (JStmt.funcDecl a b c bd) d h2
    · exact diagStmts_use ctx moduleScope (done ++ [JStmt.funcDecl a b c bd]) rest d h3
  | moduleScope, done, .cons (.varStmt a decls) rest, d, h => by
    have h0 : d ∈ ([] : List JDiag) ++ diagChildren ctx (JStmt.varStmt a decls) ++
        diagStmts ctx moduleScope (done ++ [JStmt.varStmt a decls]) rest := h
    rcases List.mem_append.mp h0 with h12 | h3
    · rcases List.mem_append.mp h12 with h1 | h2
      · cases h1
      · exact diagChildren_use ctx (JStmt.varStmt a decls) d h2
    · exact diagStmts_use ctx moduleScope (done ++ [JStmt.varStmt a decls]) rest d h3
  | moduleScope, done, .cons (.exportAssign e) rest, d, h => by
    have h0 : d ∈ ([] : List JDiag) ++ diagChildren ctx (JStmt.exportAssign e) ++
        diagStmts ctx moduleScope (done ++ [JStmt.exportAssign e]) rest := h
    rcases List.mem_append.mp h0 with h12 | h3
    · rcases List.mem_append.mp h12 with h1 | h2
      · cases h1
      · exact diagChildren_use ctx (JStmt.exportAssign e) d h2
    · exact diagStmts_use ctx moduleScope (done ++ [JStmt.exportAssign e]) rest d h3
  | moduleScope, done, .cons (.exportClause els) rest, d, h => by
    have h0 : d ∈ ([] : List JDiag) ++ diagChildren ctx (JStmt.exportClause els) ++
        diagStmts ctx moduleScope (done ++ [JStmt.exportClause els]) rest := h
    rcases List.mem_append.mp h0 with h12 | h3
    · rcases List.mem_append.mp h12 with h1 | h2
      · cases h1
      · exact diagChildren_use ctx (JStmt.exportClause els) d h2
    · exact diagStmts_use ctx moduleScope (done ++ [JStmt.exportClause els]) rest d h3
  | moduleScope, done, .cons .otherStmt rest, d, h => by
    have h0 : d ∈ ([] : List JDiag) ++ diagChildren ctx JStmt.otherStmt ++
        diagStmts ctx moduleScope (done ++ [JStmt.otherStmt]) rest := h
    rcases List.mem_append.mp h0 with h12 | h3
    · rcases List.mem_append.mp h12 with h1 | h2
      · cases h1
      · exact diagChildren_use ctx JStmt.otherStmt d h2
    · exact diagStmts_use ctx moduleScope (done ++ [JStmt.otherStmt]) rest d h3

theorem diagChildren_use (ctx : DiagCtx) :
    ∀ (s : JStmt) (d : JDiag), d ∈ diagChildren ctx s → hasUsePrefix d.text = true
  | .funcDecl _ _ _ body, d, h => diagBody_use ctx body d h
  | .varStmt _ decls, d, h => diagDecls_use ctx decls d h
  | .exportAssign e, d, h => diagExpr_use ctx e d h
  | .strLit _, d, h => by cases h
  | .exprOther, d, h => by cases h
  | .exportClause _, d, h => by cases h
  | .otherStmt, d, h => by cases h

theorem diagBody_use (ctx : DiagCtx) :
    ∀ (body : Option JStmts) (d : JDiag), d ∈ diagBody ctx body → hasUsePrefix d.text = true
  | some b, d, h => diagStmts_use ctx false [] b d h
  | none, d, h => by cases h

theorem diagExpr_use (ctx : DiagCtx) :
    ∀ (e : JExpr) (d : JDiag), d ∈ diagExpr ctx e → hasUsePrefix d.text = true
  | .arrow body, d, h => diagBody_use ctx body d h
  | .funcExpr body, d, h => diagBody_use ctx body d h
  | .otherExpr, d, h => by cases h

theorem diagDecls_use (ctx : DiagCtx) :
    ∀ (decls : JVarDecls) (d : JDiag), d ∈ diagDecls ctx decls → hasUsePrefix d.text = true
  | .cons (.mk nm (some ini)) rest, d, h => by
    have h0 : d ∈ diagExpr ctx ini ++ diagDecls ctx rest := h
    rcases List.mem_append.mp h0 with h1 | h2
    · exact diagExpr_use ctx ini d h1
    · exact diagDecls_use ctx rest d h2
  | .cons (.mk nm none) rest, d, h => by
    have h0 : d ∈ ([] : List JDiag) ++ diagDecls ctx rest := h
    rcases List.mem_append.mp h0 with h1 | h2
    · cases h1
    · exact diagDecls_use ctx rest d h2
  | .nil, d, h => by cases h

end

/-- Claim C10: every diagnostic the directive diagnostics pass adds beyond
the prior list — position violation or invalid-directive report — concerns a
string literal whose text begins with `"use "`, for any vocabulary and any
assignability oracle. -/
theorem getSemanticDiagnostics_only_use (ctx : DiagCtx) (prior : List JDiag)
    (sourceFile : JStmts) (d : JDiag)
    (h : d ∈ getSemanticDiagnostics ctx prior sourceFile) :
    d ∈ prior ∨ hasUsePrefix d.text = true := by
  unfold getSemanticDiagnostics at h
  split at h
  · exact Or.inl h
  · rcases List.mem_append.mp h with h1 | h2
    · exact Or.inl h1
    · exact Or.inr (diagStmts_use ctx true [] sourceFile d h2)

theorem getSemanticDiagnostics_only_use_witness :
    (⟨99002, true, 1, "use server"⟩ : JDiag) ∈
      getSemanticDiagnostics ⟨["use server"], none⟩ [] demoMisplacedModule ∧
    ((⟨99002, true, 1, "use server"⟩ : JDiag) ∈ ([] : List JDiag) ∨
      hasUsePrefix "use server" = true) :=
  ⟨by decide,
   getSemanticDiagnostics_only_use ⟨["use server"], none⟩ [] demoMisplacedModule
     ⟨99002, true, 1, "use server"⟩ (by decide)⟩

/-- The loop of `checkDirectivePosition` fails exactly when some earlier
sibling statement is not a directive-like string literal. -/
theorem take_all_dirLike_false_iff (statements : List JStmt) (k : Nat) :
    (statements.take k).all dirLike = false ↔
      ∃ i, i < k ∧ ∃ s, statements[i]? = some s ∧ dirLike s = false := by
  constructor
  · intro hall
    have hna : ¬ ((statements.take k).all dirLike = true) := by simp [hall]
    rw [List.all_eq_true] at hna
    push_neg at hna
    obtain ⟨x, hxmem, hx⟩ := hna
    obtain ⟨i, hi⟩ := List.mem_iff_getElem?.mp hxmem
    have hilt : i < (statements.take k).length := by
      rcases List.getElem?_eq_some_iff.mp hi with ⟨hl, -⟩
      exact hl
    have hik : i < k := by
      have := List.length_take k statements
      omega
    refine ⟨i, hik, x, ?_, by simpa using hx⟩
    rw [← List.getElem?_take_of_lt hik]
    exact hi
  · rintro ⟨i, hik, s, hgs, hds⟩
    cases h2 : (statements.take k).all dirLike with
    | false => rfl
    | true =>
      exfalso
      have hmem : s ∈ statements.take k :=
        List.getElem?_mem (by rw [List.getElem?_take_of_lt hik]; exact hgs)
      have htrue := List.all_eq_true.mp h2 s hmem
      rw [hds] at htrue
      cases htrue

/-- Claim C4: a directive-like string literal at index `k` of a statement
sequence is flagged by the position validator, tagged with the enclosing
scope kind, exactly when some earlier sibling statement of the sequence is
not itself a directive-like string literal; and on the module
`const x = 1; "use server";` the diagnostics pass produces exactly one
violation, tagged with the module-body scope. -/
theorem checkDirectivePosition_spec :
    (∀ (moduleScope : Bool) (statements : List JStmt) (k : Nat) (d : JDiag),
      checkDirectivePosition moduleScope statements k = some d ↔
        ∃ text, statements[k]? = some (JStmt.strLit text) ∧ hasUsePrefix text = true ∧
          (∃ i, i < k ∧ ∃ s, statements[i]? = some s ∧ dirLike s = false) ∧
          d = ⟨99002, moduleScope, k, text⟩)
    ∧ getSemanticDiagnostics ⟨["use server"], none⟩ [] demoMisplacedModule =
        [⟨99002, true, 1, "use server"⟩] := by
  constructor
  · intro moduleScope statements k d
    constructor
    · intro h
      unfold checkDirectivePosition at h
      split at h
      · rename_i text heq
        split at h
        · exact Option.noConfusion h
        · split at h
          · exact Option.noConfusion h
          · rename_i hnotuse hnotall
            have huse : hasUsePrefix text = true := by simpa using hnotuse
            have hall : (statements.take k).all dirLike = false :=
              Bool.eq_false_iff.mpr hnotall
            exact ⟨text, heq, huse, (take_all_dirLike_false_iff _ _).mp hall,
              (Option.some_inj.mp h).symm⟩
      · exact Option.noConfusion h
    · rintro ⟨text, hget, huse, hexists, rfl⟩
      have hall : (statements.take k).all dirLike = false :=
        (take_all_dirLike_false_iff _ _).mpr hexists
      unfold checkDirectivePosition
      rw [hget]
      show (if !(hasUsePrefix text) then none
        else if (statements.take k).all dirLike then none
        else some (JDiag.mk 99002 moduleScope k text)) =
          some (JDiag.mk 99002 moduleScope k text)
      rw [huse, hall]
      rfl
  · decide

theorem checkDirectivePosition_spec_witness :
    checkDirectivePosition true demoMisplacedModule.toList 1 =
      some ⟨99002, true, 1, "use server"⟩ :=
  (checkDirectivePosition_spec.1 true demoMisplacedModule.toList 1 _).mpr
    ⟨"use server", rfl, rfl,
      ⟨0, Nat.zero_lt_one,
        JStmt.varStmt false (.cons (.mk (some "x") (some .otherExpr)) .nil), rfl, rfl⟩,
      rfl⟩

/-- The per-name write of the first pass (inline directive, else module
directive) does not change lookups at other keys. -/
theorem alget_inlSet (acc : List (String × String)) (nm n : String)
    (io : Option String) (md : Option String) (hne : n ≠ nm) :
    alget (match io with
           | some inl => alset acc nm inl
           | none => match md with | some m => alset acc nm m | none => acc) n = alget acc n := by
  cases io with
  | some inl => exact alget_alset_ne acc nm n inl hne
  | none =>
    cases md with
    | some m => exact alget_alset_ne acc nm n m hne
    | none => rfl

theorem collectDeclsSet_frame :
    ∀ (md : Option String) (valid : List String) (acc : List (String × String))
      (decls : JVarDecls) (n : String), n ∉ declSetNames decls →
      alget (collectDeclsSet md valid acc decls) n = alget acc n
  | md, valid, acc, .nil, n, _ => rfl
  | md, valid, acc, .cons (.mk none initializer) rest, n, hn => by
    have hn2 : n ∉ declSetNames rest := by simpa [declSetNames] using hn
    exact collectDeclsSet_frame md valid acc rest n hn2
  | md, valid, acc, .cons (.mk (some nm) none) rest, n, hn => by
    have hn2 : n ∉ declSetNames rest := by simpa [declSetNames] using hn
    exact collectDeclsSet_frame md valid acc rest n hn2
  | md, valid, acc, .cons (.mk (some nm) (some ini)) rest, n, hn => by
    simp only [declSetNames, List.cons_append, List.nil_append, List.mem_cons, not_or] at hn
    show alget (collectDeclsSet md valid
        (match getDirectiveOfNode ini valid with
         | some inl => alset acc nm inl
         | none => match md with | some m => alset acc nm m | none => acc) rest) n = alget acc n
    rw [collectDeclsSet_frame md valid _ rest n hn.2]
    exact alget_inlSet acc nm n _ md hn.1

mutual

theorem collectStmt_frame :
    ∀ (md : Option String) (valid : List String) (acc : List (String × String))
      (s : JStmt) (n : String), n ∉ declNamesStmt s →
      alget (collectStmt md valid acc s) n = alget acc n
  | md, valid, acc, .strLit _, n, _ => rfl
  | md, valid, acc, .exprOther, n, _ => rfl
  | md, valid, acc, .exportClause _, n, _ => rfl
  | md, valid, acc, .otherStmt, n, _ => rfl
  | md, valid, acc, .exportAssign e, n, hn => by
    have hn2 : n ∉ declNamesExpr e := by simpa [declNamesStmt] using hn
    exact collectExpr_frame md valid acc e n hn2
  | md, valid, acc, .funcDecl ex df none body, n, hn => by
    have hn2 : n ∉ declNamesBody body := by simpa [declNamesStmt] using hn
    exact collectBody_frame md valid acc body n hn2
  | md, valid, acc, .funcDecl ex df (some nm) body, n, hn => by
    simp only [declNamesStmt, List.cons_append, List.nil_append, List.mem_cons, not_or] at hn
    show alget (collectBody md valid
        (match getDirectiveOfBody body valid with
         | some inl => alset acc nm inl
         | none => match md with | some m => alset acc nm m | none => acc) body) n = alget acc n
    rw [collectBody_frame md valid _ body n hn.2]
    exact alget_inlSet acc nm n _ md hn.1
  | md, valid, acc, .varStmt ex decls, n, hn => by
    simp only [declNamesStmt, List.mem_append, not_or] at hn
    show alget (collectDeclsChildren md valid
        (collectDeclsSet md valid acc decls) decls) n = alget acc n
    rw [collectDeclsChildren_frame md valid _ decls n hn.2]
    exact collectDeclsSet_frame md valid acc decls n hn.1

theorem collectStmts_frame :
    ∀ (md : Option String) (valid : List String) (acc : List (String × String))
      (stmts : JStmts) (n : String), n ∉ declNamesStmts stmts →
      alget (collectStmts md valid acc stmts) n = alget acc n
  | md, valid, acc, .nil, n, _ => rfl
  | md, valid, acc, .cons s rest, n, hn => by
    simp only [declNamesStmts, List.mem_append, not_or] at hn
    show alget (collectStmts md valid (collectStmt md valid acc s) rest) n = alget acc n
    rw [collectStmts_frame md valid _ rest n hn.2]
    exact collectStmt_frame md valid acc s n hn.1

theorem collectBody_frame :
    ∀ (md : Option String) (valid : List String) (acc : List (String × String))
      (body : Option JStmts) (n : String), n ∉ declNamesBody body →
      alget (collectBody md valid acc body) n = alget acc n
  | md, valid, acc, some b, n, hn => by
    have hn2 : n ∉ declNamesStmts b := by simpa [declNamesBody] using hn
    exact collectStmts_frame md valid acc b n hn2
  | md, valid, acc, none, n, _ => rfl

theorem collectExpr_frame :
    ∀ (md : Option String) (valid : List String) (acc : List (String × String))
      (e : JExpr) (n : String), n ∉ declNamesExpr e →
      alget (collectExpr md valid acc e) n = alget acc n
  | md, valid, acc, .arrow body, n, hn => by
    have hn2 : n ∉ declNamesBody body := by simpa [declNamesExpr] using hn
    exact collectBody_frame md valid acc body n hn2
  | md, valid, acc, .funcExpr body, n, hn => by
    have hn2 : n ∉ declNamesBody body := by simpa [declNamesExpr] using hn
    exact collectBody_frame md valid acc body n hn2
  | md, valid, acc, .otherExpr, n, _ => rfl

theorem collectDeclsChildren_frame :
    ∀ (md : Option String) (valid : List String) (acc : List (String × String))
      (decls : JVarDecls) (n : String), n ∉ declInitNames decls →
      alget (collectDeclsChildren md valid acc decls) n = alget acc n
  | md, valid, acc, .nil, n, _ => rfl
  | md, valid, acc, .cons (.mk nm (some ini)) rest, n, hn => by
    simp only [declInitNames, List.mem_append, not_or] at hn
    show alget (collectDeclsChildren md valid (collectExpr md valid acc ini) rest) n = alget acc n
    rw [collectDeclsChildren_frame md valid _ rest n hn.2]
    exact collectExpr_frame md valid acc ini n hn.1
  | md, valid, acc, .cons (.mk nm none) rest, n, hn => by
    have hn2 : n ∉ declInitNames rest := by simpa [declInitNames] using hn
    exact collectDeclsChildren_frame md valid acc rest n hn2

end

/-- A name-with-initializer declaration contributes its name to
`declSetNames`. -/
theorem mem_declSetNames :
    ∀ (decls : JVarDecls) (nm : String) (ini : JExpr),
      JVarDecl.mk (some nm) (some ini) ∈ decls.toList → nm ∈ declSetNames decls
  | .nil, nm, ini, hmem => by cases hmem
  | .cons d rest, nm, ini, hmem => by
    rcases List.mem_cons.mp hmem with heq | hmem2
    · cases heq.symm
      show nm ∈ nm :: declSetNames rest
      exact List.mem_cons_self nm _
    · obtain ⟨name2, init2⟩ := d
      cases name2 <;> cases init2 <;>
        first
        | exact mem_declSetNames rest nm ini hmem2
        | exact List.mem_cons_of_mem _ (mem_declSetNames rest nm ini hmem2)

/-- First-pass value at a variable declaration with no inline directive: the
module directive, provided the name is declared only once in the list. -/
theorem collectDeclsSet_value :
    ∀ (m : String) (valid : List String) (acc : List (String × String))
      (decls : JVarDecls) (nm : String) (ini : JExpr),
      JVarDecl.mk (some nm) (some ini) ∈ decls.toList →
      (declSetNames decls).Nodup →
      getDirectiveOfNode ini valid = none →
      alget (collectDeclsSet (some m) valid acc decls) nm = some m
  | m, valid, acc, .nil, nm, ini, hmem, _, _ => by cases hmem
  | m, valid, acc, .cons d rest, nm, ini, hmem, hnd, hio => by
    rcases List.mem_cons.mp hmem with heq | hmem2
    · cases heq.symm
      have hnotin : nm ∉ declSetNames rest := by
        have : (nm :: declSetNames rest).Nodup := by simpa [declSetNames] using hnd
        exact (List.nodup_cons.mp this).1
      show alget (collectDeclsSet (some m) valid
        (match getDirectiveOfNode ini valid with
         | some inl => alset acc nm inl
         | none => alset acc nm m) rest) nm = some m
      rw [hio, collectDeclsSet_frame (some m) valid _ rest nm hnotin]
      exact alget_alset_self acc nm m
    · obtain ⟨name2, init2⟩ := d
      have hnd2 : (declSetNames rest).Nodup := by
        cases name2 <;> cases init2 <;>
          first
          | simpa [declSetNames] using hnd
          | exact (List.nodup_cons.mp (by simpa [declSetNames] using hnd)).2
      cases name2 <;> cases init2 <;>
        exact collectDeclsSet_value m valid _ rest nm ini hmem2 hnd2 hio

/-- First-pass value at a function declaration with no inline directive: the
module directive. -/
theorem collectStmt_funcDecl_value (m : String) (valid : List String)
    (acc : List (String × String)) (ex df : Bool) (nm : String) (body : Option JStmts)
    (hio : getDirectiveOfBody body valid = none) (hn : nm ∉ declNamesBody body) :
    alget (collectStmt (some m) valid acc (.funcDecl ex df (some nm) body)) nm = some m := by
  show alget (collectBody (some m) valid
      (match getDirectiveOfBody body valid with
       | some inl => alset acc nm inl
       | none => alset acc nm m) body) nm = some m
  rw [hio, collectBody_frame (some m) valid _ body nm hn]
  exact alget_alset_self acc nm m

/-- First-pass value at a variable statement holding the declaration. -/
theorem collectStmt_varStmt_value (m : String) (valid : List String)
    (acc : List (String × String)) (ex : Bool) (decls : JVarDecls) (nm : String) (ini : JExpr)
    (hmem : JVarDecl.mk (some nm) (some ini) ∈ decls.toList)
    (hnd : (declNamesStmt (.varStmt ex decls)).Nodup)
    (hio : getDirectiveOfNode ini valid = none) :
    alget (collectStmt (some m) valid acc (.varStmt ex decls)) nm = some m := by
  have hnd2 : (declSetNames decls ++ declInitNames decls).Nodup := by
    simpa [declNamesStmt] using hnd
  have hset : nm ∈ declSetNames decls := mem_declSetNames decls nm ini hmem
  have hinit : nm ∉ declInitNames decls :=
    (List.nodup_append.mp hnd2).2.2 hset
  show alget (collectDeclsChildren (some m) valid
      (collectDeclsSet (some m) valid acc decls) decls) nm = some m
  rw [collectDeclsChildren_frame (some m) valid _ decls nm hinit]
  exact collectDeclsSet_value m valid acc decls nm ini hmem
    (List.Nodup.of_append_left hnd2) hio

/-- First-pass value over a statement list, function-declaration target. -/
theorem collectStmts_value_funcDecl :
    ∀ (m : String) (valid : List String) (acc : List (String × String))
      (stmts : JStmts) (ex df : Bool) (nm : String) (body : Option JStmts),
      JStmt.funcDecl ex df (some nm) body ∈ stmts.toList →
      (declNamesStmts stmts).Nodup →
      getDirectiveOfBody body valid = none →
      alget (collectStmts (some m) valid acc stmts) nm = some m
  | m, valid, acc, .nil, ex, df, nm, body, hmem, _, _ => by cases hmem
  | m, valid, acc, .cons s rest, ex, df, nm, body, hmem, hnd, hio => by
    have hnd0 : (declNamesStmt s ++ declNamesStmts rest).Nodup := by
      simpa [declNamesStmts] using hnd
    rcases List.mem_cons.mp hmem with heq | hmem2
    · cases heq.symm
      have hmemn : nm ∈ declNamesStmt (.funcDecl ex df (some nm) body) := by
        show nm ∈ nm :: declNamesBody body
        exact List.mem_cons_self nm _
      have hnotrest : nm ∉ declNamesStmts rest :=
        (List.nodup_append.mp hnd0).2.2 hmemn
      have hnotbody : nm ∉ declNamesBody body := by
        have : (nm :: declNamesBody body).Nodup := by
          have := List.Nodup.of_append_left hnd0
          simpa [declNamesStmt] using this
        exact (List.nodup_cons.mp this).1
      show alget (collectStmts (some m) valid
        (collectStmt (some m) valid acc (.funcDecl ex df (some nm) body)) rest) nm = some m
      rw [collectStmts_frame (some m) valid _ rest nm hnotrest]
      exact collectStmt_funcDecl_value m valid acc ex df nm body hio hnotbody
    · show alget (collectStmts (some m) valid
        (collectStmt (some m) valid acc s) rest) nm = some m
      exact collectStmts_value_funcDecl m valid _ rest ex df nm body hmem2
        (List.Nodup.of_append_right hnd0) hio

/-- First-pass value over a statement list, variable-declaration target. -/
theorem collectStmts_value_varStmt :
    ∀ (m : String) (valid : List String) (acc : List (String × String))
      (stmts : JStmts) (ex : Bool) (decls : JVarDecls) (nm : String) (ini : JExpr),
      JStmt.varStmt ex decls ∈ stmts.toList →
      JVarDecl.mk (some nm) (some ini) ∈ decls.toList →
      (declNamesStmts stmts).Nodup →
      getDirectiveOfNode ini valid = none →
      alget (collectStmts (some m) valid acc stmts) nm = some m
  | m, valid, acc, .nil, ex, decls, nm, ini, hmem, _, _, _ => by cases hmem
  | m, valid, acc, .cons s rest, ex, decls, nm, ini, hmem, hdmem, hnd, hio => by
    have hnd0 : (declNamesStmt s ++ declNamesStmts rest).Nodup := by
      simpa [declNamesStmts] using hnd
    rcases List.mem_cons.mp hmem with heq | hmem2
    · cases heq.symm
      have hmemn : nm ∈ declNamesStmt (.varStmt ex decls) := by
        show nm ∈ declSetNames decls ++ declInitNames decls
        exact List.mem_append_left _ (mem_declSetNames decls nm ini hdmem)
      have hnotrest : nm ∉ declNamesStmts rest :=
        (List.nodup_append.mp hnd0).2.2 hmemn
      show alget (collectStmts (some m) valid
        (collectStmt (some m) valid acc (.varStmt ex decls)) rest) nm = some m
      rw [collectStmts_frame (some m) valid _ rest nm hnotrest]
      exact collectStmt_varStmt_value m valid acc ex decls nm ini hdmem
        (List.Nodup.of_append_left hnd0) hio
    · show alget (collectStmts (some m) valid
        (collectStmt (some m) valid acc s) rest) nm = some m
      exact collectStmts_value_varStmt m valid _ rest ex decls nm ini hmem2 hdmem
        (List.Nodup.of_append_right hnd0) hio

theorem visitClause_frame :
    ∀ (dd : List (String × String)) (acc : List (String × String))
      (elements : List (Option String × String)) (n : String),
      n ∉ elements.map (fun p => p.2) →
      alget (visitClause dd acc elements) n = alget acc n
  | dd, acc, [], n, _ => rfl
  | dd, acc, (propertyName, name) :: rest, n, hn => by
    simp only [List.map_cons, List.mem_cons, not_or] at hn
    show alget (visitClause dd
      (match alget dd (match propertyName with | some p => p | none => name) with
       | some d0 => alset acc name d0
       | none => acc) rest) n = alget acc n
    rw [visitClause_frame dd _ rest n hn.2]
    cases alget dd (match propertyName with | some p => p | none => name) with
    | some d0 => exact alget_alset_ne acc name n d0 hn.1
    | none => rfl

theorem visitDeclsSet_frame :
    ∀ (dd : List (String × String)) (acc : List (String × String))
      (decls : JVarDecls) (n : String), n ∉ varDeclNames decls →
      alget (visitDeclsSet dd acc decls) n = alget acc n
  | dd, acc, .nil, n, _ => rfl
  | dd, acc, .cons (.mk none init0) rest, n, hn => by
    have hn2 : n ∉ varDeclNames rest := by simpa [varDeclNames] using hn
    exact visitDeclsSet_frame dd acc rest n hn2
  | dd, acc, .cons (.mk (some nm) init0) rest, n, hn => by
    simp only [varDeclNames, List.cons_append, List.nil_append, List.mem_cons, not_or] at hn
    show alget (visitDeclsSet dd
      (match alget dd nm with
       | some dv => alset acc nm dv
       | none => acc) rest) n = alget acc n
    rw [visitDeclsSet_frame dd _ rest n hn.2]
    cases alget dd nm with
    | some dv => exact alget_alset_ne acc nm n dv hn.1
    | none => rfl

mutual

theorem visitStmt_frame :
    ∀ (md : Option String) (valid : List String) (dd : List (String × String))
      (acc : List (String × String)) (s : JStmt) (n : String),
      n ∉ exportedNamesStmt s →
      alget (visitStmt md valid dd acc s) n = alget acc n
  | md, valid, dd, acc, .strLit _, n, _ => rfl
  | md, valid, dd, acc, .exprOther, n, _ => rfl
  | md, valid, dd, acc, .otherStmt, n, _ => rfl
  | md, valid, dd, acc, .exportClause elements, n, hn => by
    have hn2 : n ∉ elements.map (fun p => p.2) := by
      simpa [exportedNamesStmt] using hn
    exact visitClause_frame dd acc elements n hn2
  | md, valid, dd, acc, .exportAssign e, n, hn => by
    simp only [exportedNamesStmt, List.mem_cons, not_or] at hn
    show alget (visitExprChildren md valid dd
      (match getDirectiveOfNode e valid with
       | some inl => alset acc "default" inl
       | none => match md with | some m => alset acc "default" m | none => acc) e) n =
      alget acc n
    rw [visitExprChildren_frame md valid dd _ e n hn.2]
    exact alget_inlSet acc "default" n _ md hn.1
  | md, valid, dd, acc, .funcDecl ex df none body, n, hn => by
    have hn2 : n ∉ exportedNamesBody body := by simpa [exportedNamesStmt] using hn
    exact visitBody_frame md valid dd acc body n hn2
  | md, valid, dd, acc, .funcDecl false df (some nm) body, n, hn => by
    have hn2 : n ∉ exportedNamesBody body := by simpa [exportedNamesStmt] using hn
    exact visitBody_frame md valid dd acc body n hn2
  | md, valid, dd, acc, .funcDecl true df (some nm) body, n, hn => by
    simp only [exportedNamesStmt, if_true, List.cons_append, List.mem_cons, List.mem_append,
      not_or] at hn
    show alget (visitBody md valid dd
      (match alget dd nm with
       | some dv =>
         let a2 := alset acc nm dv
         if df then alset a2 "default" dv else a2
       | none => acc) body) n = alget acc n
    rw [visitBody_frame md valid dd _ body n (by
      cases df with
      | true =>
        have := hn.2
        simp at this
        exact this.2
      | false =>
        have := hn.2
        simpa using this)]
    cases alget dd nm with
    | some dv =>
      cases df with
      | true =>
        have hdef : n ≠ "default" := by
          have := hn.2
          simp at this
          exact this.1
        show alget (alset (alset acc nm dv) "default" dv) n = alget acc n
        rw [alget_alset_ne _ _ _ _ hdef]
        exact alget_alset_ne acc nm n dv hn.1
      | false =>
        show alget (alset acc nm dv) n = alget acc n
        exact alget_alset_ne acc nm n dv hn.1
    | none => rfl
  | md, valid, dd, acc, .varStmt ex decls, n, hn => by
    simp only [exportedNamesStmt, List.mem_append, not_or] at hn
    show alget (visitDeclsChildren md valid dd
      (if ex then visitDeclsSet dd acc decls else acc) decls) n = alget acc n
    rw [visitDeclsChildren_frame md valid dd _ decls n hn.2]
    cases ex with
    | true =>
      have hv : n ∉ varDeclNames decls := by
        have := hn.1
        simpa using this
      show alget (visitDeclsSet dd acc decls) n = alget acc n
      exact visitDeclsSet_frame dd acc decls n hv
    | false => rfl

theorem visitStmts_frame :
    ∀ (md : Option String) (valid : List String) (dd : List (String × String))
      (acc : List (String × String)) (stmts : JStmts) (n : String),
      n ∉ exportedNamesStmts stmts →
      alget (visitStmts md valid dd acc stmts) n = alget acc n
  | md, valid, dd, acc, .nil, n, _ => rfl
  | md, valid, dd, acc, .cons s rest, n, hn => by
    simp only [exportedNamesStmts, List.mem_append, not_or] at hn
    show alget (visitStmts md valid dd (visitStmt md valid dd acc s) rest) n = alget acc n
    rw [visitStmts_frame md valid dd _ rest n hn.2]
    exact visitStmt_frame md valid dd acc s n hn.1

theorem visitBody_frame :
    ∀ (md : Option String) (valid : List String) (dd : List (String × String))
      (acc : List (String × String)) (body : Option JStmts) (n : String),
      n ∉ exportedNamesBody body →
      alget (visitBody md valid dd acc body) n = alget acc n
  | md, valid, dd, acc, some b, n, hn => by
    have hn2 : n ∉ exportedNamesStmts b := by simpa [exportedNamesBody] using hn
    exact visitStmts_frame md valid dd acc b n hn2
  | md, valid, dd, acc, none, n, _ => rfl

theorem visitExprChildren_frame :
    ∀ (md : Option String) (valid : List String) (dd : List (String × String))
      (acc : List (String × String)) (e : JExpr) (n : String),
      n ∉ exportedNamesExpr e →
      alget (visitExprChildren md valid dd acc e) n = alget acc n
  | md, valid, dd, acc, .arrow body, n, hn => by
    have hn2 : n ∉ exportedNamesBody body := by simpa [exportedNamesExpr] using hn
    exact visitBody_frame md valid dd acc body n hn2
  | md, valid, dd, acc, .funcExpr body, n, hn => by
    have hn2 : n ∉ exportedNamesBody body := by simpa [exportedNamesExpr] using hn
    exact visitBody_frame md valid dd acc body n hn2
  | md, valid, dd, acc, .otherExpr, n, _ => rfl

theorem visitDeclsChildren_frame :
    ∀ (md : Option String) (valid : List String) (dd : List (String × String))
      (acc : List (String × String)) (decls : JVarDecls) (n : String),
      n ∉ exportedNamesDecls decls →
      alget (visitDeclsChildren md valid dd acc decls) n = alget acc n
  | md, valid, dd, acc, .nil, n, _ => rfl
  | md, valid, dd, acc, .cons (.mk nm (some ini)) rest, n, hn => by
    simp only [exportedNamesDecls, List.mem_append, not_or] at hn
    show alget (visitDeclsChildren md valid dd
      (visitExprChildren md valid dd acc ini) rest) n = alget acc n
    rw [visitDeclsChildren_frame md valid dd _ rest n hn.2]
    exact visitExprChildren_frame md valid dd acc ini n hn.1
  | md, valid, dd, acc, .cons (.mk nm none) rest, n, hn => by
    have hn2 : n ∉ exportedNamesDecls rest := by simpa [exportedNamesDecls] using hn
    exact visitDeclsChildren_frame md valid dd acc rest n hn2

end

/-- An identifier declaration contributes its name to `varDeclNames`. -/
theorem mem_varDeclNames :
    ∀ (decls : JVarDecls) (nm : String) (init0 : Option JExpr),
      JVarDecl.mk (some nm) init0 ∈ decls.toList → nm ∈ varDeclNames decls
  | .nil, nm, init0, hmem => by cases hmem
  | .cons d rest, nm, init0, hmem => by
    rcases List.mem_cons.mp hmem with heq | hmem2
    · cases heq.symm
      show nm ∈ nm :: varDeclNames rest
      exact List.mem_cons_self nm _
    · obtain ⟨name2, init2⟩ := d
      cases name2 with
      | none => exact mem_varDeclNames rest nm init0 hmem2
      | some nm2 =>
        exact List.mem_cons_of_mem _ (mem_varDeclNames rest nm init0 hmem2)

/-- Second-pass value at an exported variable statement's declaration: the
collected directive of the name, provided the name occurs only once in the
statement. -/
theorem visitDeclsSet_value :
    ∀ (dd : List (String × String)) (acc : List (String × String))
      (decls : JVarDecls) (nm : String) (init0 : Option JExpr) (dv : String),
      JVarDecl.mk (some nm) init0 ∈ decls.toList →
      (varDeclNames decls).Nodup →
      alget dd nm = some dv →
      alget (visitDeclsSet dd acc decls) nm = some dv
  | dd, acc, .nil, nm, init0, dv, hmem, _, _ => by cases hmem
  | dd, acc, .cons d rest, nm, init0, dv, hmem, hnd, hdd => by
    rcases List.mem_cons.mp hmem with heq | hmem2
    · cases heq.symm
      have hnotin : nm ∉ varDeclNames rest := by
        have : (nm :: varDeclNames rest).Nodup := by simpa [varDeclNames] using hnd
        exact (List.nodup_cons.mp this).1
      show alget (visitDeclsSet dd
        (match alget dd nm with
         | some dv2 => alset acc nm dv2
         | none => acc) rest) nm = some dv
      rw [hdd, visitDeclsSet_frame dd _ rest nm hnotin]
      exact alget_alset_self acc nm dv
    · obtain ⟨name2, init2⟩ := d
      have hnd2 : (varDeclNames rest).Nodup := by
        cases name2 with
        | none => simpa [varDeclNames] using hnd
        | some nm2 => exact (List.nodup_cons.mp (by simpa [varDeclNames] using hnd)).2
      cases name2 with
      | none => exact visitDeclsSet_value dd acc rest nm init0 dv hmem2 hnd2 hdd
      | some nm2 =>
        exact visitDeclsSet_value dd _ rest nm init0 dv hmem2 hnd2 hdd

/-- Second-pass value at an exported function declaration. -/
theorem visitStmt_funcDecl_value (md : Option String) (valid : List String)
    (dd : List (String × String)) (acc : List (String × String)) (df : Bool)
    (nm : String) (body : Option JStmts) (dv : String)
    (hdd : alget dd nm = some dv)
    (hnd : (exportedNamesStmt (.funcDecl true df (some nm) body)).Nodup) :
    alget (visitStmt md valid dd acc (.funcDecl true df (some nm) body)) nm = some dv := by
  have hnd0 : (nm :: ((if df then ["default"] else []) ++ exportedNamesBody body)).Nodup := by
    simpa [exportedNamesStmt] using hnd
  have hnm := (List.nodup_cons.mp hnd0).1
  have hbody : nm ∉ exportedNamesBody body := fun hc => hnm (List.mem_append_right _ hc)
  show alget (visitBody md valid dd
    (match alget dd nm with
     | some dv2 =>
       let a2 := alset acc nm dv2
       if df then alset a2 "default" dv2 else a2
     | none => acc) body) nm = some dv
  rw [hdd, visitBody_frame md valid dd _ body nm hbody]
  cases df with
  | true =>
    have hdef : nm ≠ "default" := by
      intro hc
      exact hnm (List.mem_append_left _ (by simp [hc]))
    show alget (alset (alset acc nm dv) "default" dv) nm = some dv
    rw [alget_alset_ne _ _ _ _ hdef]
    exact alget_alset_self acc nm dv
  | false =>
    show alget (alset acc nm dv) nm = some dv
    exact alget_alset_self acc nm dv

/-- Second-pass value at an exported variable statement. -/
theorem visitStmt_varStmt_value (md : Option String) (valid : List String)
    (dd : List (String × String)) (acc : List (String × String)) (decls : JVarDecls)
    (nm : String) (init0 : Option JExpr) (dv : String)
    (hmem : JVarDecl.mk (some nm) init0 ∈ decls.toList)
    (hnd : (exportedNamesStmt (.varStmt true decls)).Nodup)
    (hdd : alget dd nm = some dv) :
    alget (visitStmt md valid dd acc (.varStmt true decls)) nm = some dv := by
  have hnd0 : (varDeclNames decls ++ exportedNamesDecls decls).Nodup := by
    simpa [exportedNamesStmt] using hnd
  have hv : nm ∈ varDeclNames decls := mem_varDeclNames decls nm init0 hmem
  have hnotd : nm ∉ exportedNamesDecls decls := (List.nodup_append.mp hnd0).2.2 hv
  show alget (visitDeclsChildren md valid dd
    (if true then visitDeclsSet dd acc decls else acc) decls) nm = some dv
  rw [visitDeclsChildren_frame md valid dd _ decls nm hnotd]
  show alget (visitDeclsSet dd acc decls) nm = some dv
  exact visitDeclsSet_value dd acc decls nm init0 dv hmem
    (List.Nodup.of_append_left hnd0) hdd

/-- Second-pass value over a statement list, function-declaration target. -/
theorem visitStmts_value_funcDecl :
    ∀ (md : Option String) (valid : List String) (dd : List (String × String))
      (acc : List (String × String)) (stmts : JStmts) (df : Bool) (nm : String)
      (body : Option JStmts) (dv : String),
      JStmt.funcDecl true df (some nm) body ∈ stmts.toList →
      (exportedNamesStmts stmts).Nodup →
      alget dd nm = some dv →
      alget (visitStmts md valid dd acc stmts) nm = some dv
  | md, valid, dd, acc, .nil, df, nm, body, dv, hmem, _, _ => by cases hmem
  | md, valid, dd, acc, .cons s rest, df, nm, body, dv, hmem, hnd, hdd => by
    have hnd0 : (exportedNamesStmt s ++ exportedNamesStmts rest).Nodup := by
      simpa [exportedNamesStmts] using hnd
    rcases List.mem_cons.mp hmem with heq | hmem2
    · cases heq.symm
      have hmemn : nm ∈ exportedNamesStmt (.funcDecl true df (some nm) body) := by
        show nm ∈ (nm :: (if df then ["default"] else [])) ++ exportedNamesBody body
        exact List.mem_append_left _ (List.mem_cons_self nm _)
      have hnotrest : nm ∉ exportedNamesStmts rest :=
        (List.nodup_append.mp hnd0).2.2 hmemn
      show alget (visitStmts md valid dd
        (visitStmt md valid dd acc (.funcDecl true df (some nm) body)) rest) nm = some dv
      rw [visitStmts_frame md valid dd _ rest nm hnotrest]
      exact visitStmt_funcDecl_value md valid dd acc df nm body dv hdd
        (List.Nodup.of_append_left hnd0)
    · show alget (visitStmts md valid dd (visitStmt md valid dd acc s) rest) nm = some dv
      exact visitStmts_value_funcDecl md valid dd _ rest df nm body dv hmem2
        (List.Nodup.of_append_right hnd0) hdd

/-- Second-pass value over a statement list, variable-declaration target. -/
theorem visitStmts_value_varStmt :
    ∀ (md : Option String) (valid : List String) (dd : List (String × String))
      (acc : List (String × String)) (stmts : JStmts) (decls : JVarDecls) (nm : String)
      (init0 : Option JExpr) (dv : String),
      JStmt.varStmt true decls ∈ stmts.toList →
      JVarDecl.mk (some nm) init0 ∈ decls.toList →
      (exportedNamesStmts stmts).Nodup →
      alget dd nm = some dv →
      alget (visitStmts md valid dd acc stmts) nm = some dv
  | md, valid, dd, acc, .nil, decls, nm, init0, dv, hmem, _, _, _ => by cases hmem
  | md, valid, dd, acc, .cons s rest, decls, nm, init0, dv, hmem, hdmem, hnd, hdd => by
    have hnd0 : (exportedNamesStmt s ++ exportedNamesStmts rest).Nodup := by
      simpa [exportedNamesStmts] using hnd
    rcases List.mem_cons.mp hmem with heq | hmem2
    · cases heq.symm
      have hmemn : nm ∈ exportedNamesStmt (.varStmt true decls) := by
        show nm ∈ (if true then varDeclNames decls else []) ++ exportedNamesDecls decls
        exact List.mem_append_left _ (mem_varDeclNames decls nm init0 hdmem)
      have hnotrest : nm ∉ exportedNamesStmts rest :=
        (List.nodup_append.mp hnd0).2.2 hmemn
      show alget (visitStmts md valid dd
        (visitStmt md valid dd acc (.varStmt true decls)) rest) nm = some dv
      rw [visitStmts_frame md valid dd _ rest nm hnotrest]
      exact visitStmt_varStmt_value md valid dd acc decls nm init0 dv hdmem
        (List.Nodup.of_append_left hnd0) hdd
    · show alget (visitStmts md valid dd (visitStmt md valid dd acc s) rest) nm = some dv
      exact visitStmts_value_varStmt md valid dd _ rest decls nm init0 dv hmem2 hdmem
        (List.Nodup.of_append_right hnd0) hdd

/-- Claim C3 counterexample: in the module `"use server";
export function f() {} function g() { const f = () => { "use client"; }; }`
the first top-level statement is a module directive matching the vocabulary
and the exported function `f` has no inline directive of its own, yet the
scanner maps `f` to `"use client"`, not to the module directive: the first
pass flattens all scopes into one per-name map, so the nested shadowing
declaration of `f` overrides the exported one. -/
theorem scanFileDirectives_inherit_counterexample :
    getFirstDirective demoShadowModule ["use server", "use client"] = some "use server" ∧
    getDirectiveOfBody (some JStmts.nil) ["use server", "use client"] = none ∧
    alget (scanFileDirectives ["use server", "use client"] demoShadowModule).exportDirectives
      "f" = some "use client" ∧
    ¬ alget (scanFileDirectives ["use server", "use client"] demoShadowModule).exportDirectives
      "f" = some "use server" := by
  refine ⟨?_, ?_, ?_, ?_⟩ <;> decide

/-- Claim C3 (amended): for a module whose first top-level statement is a
string-literal directive matching the vocabulary, and whose declared names
and exported names are each unambiguous (no name is recorded or published
twice across the flattened scopes), the scan assigns the module directive in
`exportDirectives` to every exported named function declaration and every
exported name-bound function/arrow variable declaration without an inline
directive of its own, and every key of `exportDirectives` is an exported-name
source (an exported declaration's name, an export clause's exported name, or
the reserved `"default"` key) — in particular no other non-exported
declaration's name ever appears. -/
theorem scanFileDirectives_inheritance (valid : List String) (t d : String) (rest : JStmts)
    (hmatch : matchDirective t valid = some d)
    (hdn : (declNamesStmts (JStmts.cons (.strLit t) rest)).Nodup)
    (hen : (exportedNamesStmts (JStmts.cons (.strLit t) rest)).Nodup) :
    (scanFileDirectives valid (JStmts.cons (.strLit t) rest)).moduleDirectives = [d] ∧
    (∀ (df : Bool) (nm : String) (body : Option JStmts),
      JStmt.funcDecl true df (some nm) body ∈ (JStmts.cons (.strLit t) rest).toList →
      getDirectiveOfBody body valid = none →
      alget (scanFileDirectives valid (JStmts.cons (.strLit t) rest)).exportDirectives nm =
        some d) ∧
    (∀ (decls : JVarDecls) (nm : String) (ini : JExpr),
      JStmt.varStmt true decls ∈ (JStmts.cons (.strLit t) rest).toList →
      JVarDecl.mk (some nm) (some ini) ∈ decls.toList →
      isFunctionLike ini = true →
      getDirectiveOfNode ini valid = none →
      alget (scanFileDirectives valid (JStmts.cons (.strLit t) rest)).exportDirectives nm =
        some d) ∧
    (∀ n, alget (scanFileDirectives valid (JStmts.cons (.strLit t) rest)).exportDirectives n ≠
        none →
      n ∈ exportedNamesStmts (JStmts.cons (.strLit t) rest)) := by
  have h1 : getTopLevelDirectives (JStmts.cons (.strLit t) rest) valid = [d] := by
    unfold getTopLevelDirectives
    have h0 : getFirstDirective (JStmts.cons (.strLit t) rest) valid = some d := hmatch
    rw [h0]
  have hscan : scanFileDirectives valid (JStmts.cons (.strLit t) rest) =
      ⟨[d], visitStmts (some d) valid
        (collectStmts (some d) valid [] (JStmts.cons (.strLit t) rest)) []
        (JStmts.cons (.strLit t) rest)⟩ := by
    unfold scanFileDirectives
    rw [h1]
  refine ⟨by rw [hscan], ?_, ?_, ?_⟩
  · intro df nm body hmem hio
    have hdd : alget (collectStmts (some d) valid [] (JStmts.cons (.strLit t) rest)) nm =
        some d :=
      collectStmts_value_funcDecl d valid [] (JStmts.cons (.strLit t) rest) true df nm body
        hmem hdn hio
    rw [hscan]
    exact visitStmts_value_funcDecl (some d) valid _ [] (JStmts.cons (.strLit t) rest)
      df nm body d hmem hen hdd
  · intro decls nm ini hmem hdmem _hfun hio
    have hdd : alget (collectStmts (some d) valid [] (JStmts.cons (.strLit t) rest)) nm =
        some d :=
      collectStmts_value_varStmt d valid [] (JStmts.cons (.strLit t) rest) true decls nm ini
        hmem hdmem hdn hio
    rw [hscan]
    exact visitStmts_value_varStmt (some d) valid _ [] (JStmts.cons (.strLit t) rest)
      decls nm (some ini) d hmem hdmem hen hdd
  · intro n hne
    by_contra hnotin
    apply hne
    rw [hscan]
    exact (visitStmts_frame (some d) valid _ [] (JStmts.cons (.strLit t) rest) n hnotin).trans
      rfl

theorem scanFileDirectives_inheritance_witness :
    matchDirective "use server" ["use server"] = some "use server" ∧
    (scanFileDirectives ["use server"] demoInheritModule).moduleDirectives = ["use server"] ∧
    alget (scanFileDirectives ["use server"] demoInheritModule).exportDirectives "addTodo" =
      some "use server" ∧
    alget (scanFileDirectives ["use server"] demoInheritModule).exportDirectives "deleteTodo" =
      some "use server" := by
  have h := scanFileDirectives_inheritance ["use server"] "use server" "use server"
    (JStmts.cons (.funcDecl true false (some "addTodo") (some .nil))
      (JStmts.cons (.funcDecl true false (some "deleteTodo") (some .nil)) .nil))
    (by decide) (by decide) (by decide)
  exact ⟨by decide, h.1,
    h.2.1 false "addTodo" (some .nil) (List.mem_cons_of_mem _ (List.mem_cons_self _ _)) (by decide),
    h.2.1 false "deleteTodo" (some .nil)
      (List.mem_cons_of_mem _ (List.mem_cons_of_mem _ (List.mem_cons_self _ _))) (by decide)⟩

theorem levAux_nil_left {α : Type} [DecidableEq α] (ys : List α) :
    levAux ([] : List α) ys = ys.length := by
  simp [levAux]

theorem levAux_nil_right {α : Type} [DecidableEq α] (xs : List α) :
    levAux xs ([] : List α) = xs.length := by
  cases xs <;> simp [levAux]

theorem levAux_cons_cons {α : Type} [DecidableEq α] (x y : α) (xs ys : List α) :
    levAux (x :: xs) (y :: ys) =
      if x = y then levAux xs ys
      else min (min (levAux xs ys) (levAux (x :: xs) ys)) (levAux xs (y :: ys)) + 1 := by
  rw [levAux]

/-- Edit distance is symmetric. -/
theorem levAux_comm {α : Type} [DecidableEq α] : ∀ (xs ys : List α), levAux xs ys = levAux ys xs
  | [], ys => by rw [levAux_nil_left, levAux_nil_right]
  | x :: xs, [] => by rw [levAux_nil_left, levAux_nil_right]
  | x :: xs, y :: ys => by
    rw [levAux_cons_cons, levAux_cons_cons]
    by_cases h : x = y
    · rw [if_pos h, if_pos h.symm, levAux_comm xs ys]
    · rw [if_neg h, if_neg (Ne.symm h),
        levAux_comm xs ys, levAux_comm (x :: xs) ys, levAux_comm xs (y :: ys)]
      omega
termination_by xs ys => xs.length + ys.length

/-- Prepending one character to either side changes the edit distance by at
most one, in both directions. -/
theorem levAux_cons_bounds {α : Type} [DecidableEq α] :
    ∀ (xs ys : List α),
      (∀ x, levAux (x :: xs) ys ≤ levAux xs ys + 1) ∧
      (∀ x, levAux xs ys ≤ levAux (x :: xs) ys + 1)
  | xs, [] => by
    constructor
    · intro x
      rw [levAux_nil_right, levAux_nil_right]
      simp
    · intro x
      rw [levAux_nil_right, levAux_nil_right]
      simp
      omega
  | xs, y :: ys => by
    have hadd : levAux xs (y :: ys) ≤ levAux xs ys + 1 := by
      have har := (levAux_cons_bounds ys xs).1 y
      rw [levAux_comm (y :: ys) xs, levAux_comm ys xs] at har
      exact har
    have hrem : levAux xs ys ≤ levAux xs (y :: ys) + 1 := by
      have hrr := (levAux_cons_bounds ys xs).2 y
      rw [levAux_comm (y :: ys) xs, levAux_comm ys xs] at hrr
      exact hrr
    constructor
    · intro x
      rw [levAux_cons_cons]
      by_cases h : x = y
      · rw [if_pos h]
        exact hrem
      · rw [if_neg h]
        have h3 : min (min (levAux xs ys) (levAux (x :: xs) ys)) (levAux xs (y :: ys)) ≤
            levAux xs (y :: ys) := Nat.min_le_right _ _
        omega
    · intro x
      rw [levAux_cons_cons]
      by_cases h : x = y
      · rw [if_pos h]
        exact hadd
      · rw [if_neg h]
        have hrl : levAux xs ys ≤ levAux (x :: xs) ys + 1 := (levAux_cons_bounds xs ys).2 x
        omega
termination_by xs ys => xs.length + ys.length

/-- Edit scripts: `Edits n xs ys` holds when `xs` can be turned into `ys`
with at most `n` single-character substitutions, insertions and deletions. -/
inductive Edits {α : Type} : Nat → List α → List α → Prop where
  | nil : Edits 0 [] []
  | relax {n : Nat} {xs ys : List α} : Edits n xs ys → Edits (n + 1) xs ys
  | copy {n : Nat} {xs ys : List α} (x : α) : Edits n xs ys → Edits n (x :: xs) (x :: ys)
  | subst {n : Nat} {xs ys : List α} (x y : α) :
      Edits n xs ys → Edits (n + 1) (x :: xs) (y :: ys)
  | ins {n : Nat} {xs ys : List α} (y : α) : Edits n xs ys → Edits (n + 1) xs (y :: ys)
  | del {n : Nat} {xs ys : List α} (x : α) : Edits n xs ys → Edits (n + 1) (x :: xs) ys

theorem edits_nil_left {α : Type} : ∀ ys : List α, Edits ys.length [] ys
  | [] => .nil
  | y :: ys => .ins y (edits_nil_left ys)

theorem edits_nil_right {α : Type} : ∀ xs : List α, Edits xs.length xs []
  | [] => .nil
  | x :: xs => .del x (edits_nil_right xs)

/-- Completeness: there is an edit script of cost `levAux xs ys`. -/
theorem levAux_edits {α : Type} [DecidableEq α] : ∀ (xs ys : List α), Edits (levAux xs ys) xs ys
  | [], ys => by rw [levAux_nil_left]; exact edits_nil_left ys
  | x :: xs, [] => by rw [levAux_nil_right]; exact edits_nil_right _
  | x :: xs, y :: ys => by
    rw [levAux_cons_cons]
    by_cases h : x = y
    · rw [if_pos h]
      cases h
      exact .copy x (levAux_edits xs ys)
    · rw [if_neg h]
      rcases min_cases (min (levAux xs ys) (levAux (x :: xs) ys)) (levAux xs (y :: ys)) with
        ⟨heq, -⟩ | ⟨heq, -⟩
      · rcases min_cases (levAux xs ys) (levAux (x :: xs) ys) with ⟨heq2, -⟩ | ⟨heq2, -⟩
        · rw [heq, heq2]
          exact .subst x y (levAux_edits xs ys)
        · rw [heq, heq2]
          exact .ins y (levAux_edits (x :: xs) ys)
      · rw [heq]
        exact .del x (levAux_edits xs (y :: ys))
termination_by xs ys => xs.length + ys.length

/-- Soundness: any edit script bounds the edit distance. -/
theorem edits_sound {α : Type} [DecidableEq α] {n : Nat} {xs ys : List α}
    (h : Edits n xs ys) : levAux xs ys ≤ n := by
  induction h with
  | nil => rw [levAux_nil_left]; simp
  | relax h ih => omega
  | copy x h ih => rw [levAux_cons_cons, if_pos rfl]; exact ih
  | @subst n2 xs2 ys2 x y h ih =>
    rw [levAux_cons_cons]
    by_cases hxy : x = y
    · rw [if_pos hxy]
      omega
    · rw [if_neg hxy]
      have h1 : min (min (levAux xs2 ys2) (levAux (x :: xs2) ys2)) (levAux xs2 (y :: ys2)) ≤
          levAux xs2 ys2 := le_trans (Nat.min_le_left _ _) (Nat.min_le_left _ _)
      omega
  | @ins n2 xs2 ys2 y h ih =>
    have hb : levAux xs2 (y :: ys2) ≤ levAux xs2 ys2 + 1 := by
      have har := (levAux_cons_bounds ys2 xs2).1 y
      rw [levAux_comm (y :: ys2) xs2, levAux_comm ys2 xs2] at har
      exact har
    omega
  | @del n2 xs2 ys2 x h ih =>
    have hb : levAux (x :: xs2) ys2 ≤ levAux xs2 ys2 + 1 := (levAux_cons_bounds xs2 ys2).1 x
    omega

theorem edits_push_copy {α : Type} {y : α} {b2 c2 : List α} {n : Nat}
    (H : ∀ {m : Nat} {a : List α}, Edits m a b2 → Edits (m + n) a c2) :
    ∀ {m : Nat} {a : List α}, Edits m a (y :: b2) → Edits (m + n) a (y :: c2) := by
  suffices hgen : ∀ (m : Nat) (a B : List α), Edits m a B → B = y :: b2 →
      Edits (m + n) a (y :: c2) by
    intro m a h
    exact hgen m a _ h rfl
  intro m a B hed
  induction hed with
  | nil => intro hB; cases hB
  | @relax m2 xs2 ys2 h ih =>
    intro hB
    exact Nat.add_right_comm m2 1 n ▸ Edits.relax (ih hB)
  | @copy m2 xs2 ys2 x h ih =>
    intro hB
    injection hB with hB1 hB2
    subst hB1
    subst hB2
    exact .copy _ (H h)
  | @subst m2 xs2 ys2 x z h ih =>
    intro hB
    injection hB with hB1 hB2
    subst hB1
    subst hB2
    exact Nat.add_right_comm m2 1 n ▸ Edits.subst x _ (H h)
  | @ins m2 xs2 ys2 z h ih =>
    intro hB
    injection hB with hB1 hB2
    subst hB1
    subst hB2
    exact Nat.add_right_comm m2 1 n ▸ Edits.ins _ (H h)
  | @del m2 xs2 ys2 x h ih =>
    intro hB
    exact Nat.add_right_comm m2 1 n ▸ Edits.del x (ih hB)

theorem edits_push_subst {α : Type} {x y : α} {b2 c2 : List α} {n : Nat}
    (H : ∀ {m : Nat} {a : List α}, Edits m a b2 → Edits (m + n) a c2) :
    ∀ {m : Nat} {a : List α}, Edits m a (x :: b2) → Edits (m + n + 1) a (y :: c2) := by
  suffices hgen : ∀ (m : Nat) (a B : List α), Edits m a B → B = x :: b2 →
      Edits (m + n + 1) a (y :: c2) by
    intro m a h
    exact hgen m a _ h rfl
  intro m a B hed
  induction hed with
  | nil => intro hB; cases hB
  | @relax m2 xs2 ys2 h ih =>
    intro hB
    exact Nat.add_right_comm m2 1 (n + 1) ▸ Edits.relax (ih hB)
  | @copy m2 xs2 ys2 z h ih =>
    intro hB
    injection hB with hB1 hB2
    subst hB1
    subst hB2
    exact .subst _ y (H h)
  | @subst m2 xs2 ys2 z w h ih =>
    intro hB
    injection hB with hB1 hB2
    subst hB1
    subst hB2
    exact Nat.add_right_comm m2 1 (n + 1) ▸ Edits.relax (Edits.subst z y (H h))
  | @ins m2 xs2 ys2 w h ih =>
    intro hB
    injection hB with hB1 hB2
    subst hB1
    subst hB2
    exact Nat.add_right_comm m2 1 (n + 1) ▸ Edits.relax (Edits.ins y (H h))
  | @del m2 xs2 ys2 z h ih =>
    intro hB
    exact Nat.add_right_comm m2 1 (n + 1) ▸ Edits.del z (ih hB)

theorem edits_push_del {α : Type} {x : α} {b2 c : List α} {n : Nat}
    (H : ∀ {m : Nat} {a : List α}, Edits m a b2 → Edits (m + n) a c) :
    ∀ {m : Nat} {a : List α}, Edits m a (x :: b2) → Edits (m + n + 1) a c := by
  suffices hgen : ∀ (m : Nat) (a B : List α), Edits m a B → B = x :: b2 →
      Edits (m + n + 1) a c by
    intro m a h
    exact hgen m a _ h rfl
  intro m a B hed
  induction hed with
  | nil => intro hB; cases hB
  | @relax m2 xs2 ys2 h ih =>
    intro hB
    exact Nat.add_right_comm m2 1 (n + 1) ▸ Edits.relax (ih hB)
  | @copy m2 xs2 ys2 z h ih =>
    intro hB
    injection hB with hB1 hB2
    subst hB1
    subst hB2
    exact .del _ (H h)
  | @subst m2 xs2 ys2 z w h ih =>
    intro hB
    injection hB with hB1 hB2
    subst hB1
    subst hB2
    exact Nat.add_right_comm m2 1 (n + 1) ▸ Edits.relax (Edits.del z (H h))
  | @ins m2 xs2 ys2 w h ih =>
    intro hB
    injection hB with hB1 hB2
    subst hB1
    subst hB2
    have h2 := Edits.relax (Edits.relax (H h))
    exact Nat.add_right_comm m2 1 (n + 1) ▸ Nat.add_assoc m2 n 2 ▸ h2
  | @del m2 xs2 ys2 z h ih =>
    intro hB
    exact Nat.add_right_comm m2 1 (n + 1) ▸ Edits.del z (ih hB)

/-- Edit scripts compose. -/
theorem edits_comp {α : Type} : ∀ {n : Nat} {b c : List α}, Edits n b c →
    ∀ {m : Nat} {a : List α}, Edits m a b → Edits (m + n) a c := by
  intro n b c h2
  induction h2 with
  | nil => intro m a h1; simpa using h1
  | relax h ih => intro m a h1; exact .relax (ih h1)
  | copy y h ih => intro m a h1; exact edits_push_copy (fun hh => ih hh) h1
  | subst x y h ih => intro m a h1; exact edits_push_subst (fun hh => ih hh) h1
  | ins y h ih => intro m a h1; exact .ins y (ih h1)
  | del x h ih => intro m a h1; exact edits_push_del (fun hh => ih hh) h1

/-- Edit distance satisfies the triangle inequality. -/
theorem levAux_triangle {α : Type} [DecidableEq α] (a b c : List α) :
    levAux a c ≤ levAux a b + levAux b c :=
  edits_sound (edits_comp (levAux_edits b c) (levAux_edits a b))

/-- The matrix cell `matrix[i][j]` holds the edit distance between the first
`j` characters of `a` and the first `i` characters of `b` (as reversed
lists, so that the head-recursive `levAux` peels the prefix's last
character exactly as the matrix recurrence does). -/
theorem levCell_eq_levAux (a b : List Char) :
    ∀ (i j : Nat), i ≤ b.length → j ≤ a.length →
      levCell a b i j = levAux ((a.take j).reverse) ((b.take i).reverse) := by
  intro i
  induction i with
  | zero =>
    intro j hi hj
    rw [levCell]
    simp [levAux_nil_right, Nat.min_eq_left hj]
  | succ i ih =>
    intro j hi hj
    have hib : i < b.length := hi
    obtain ⟨bi, hbi⟩ : ∃ v, b[i]? = some v := ⟨b[i], List.getElem?_eq_getElem hib⟩
    have hti : (b.take (i + 1)).reverse = bi :: (b.take i).reverse := by
      rw [List.take_succ, hbi]
      simp
    induction j with
    | zero =>
      rw [levCell]
      rw [hti]
      simp [levAux_nil_left, List.length_take, Nat.min_eq_left (le_of_lt hib)]
    | succ j ihj =>
      have hja : j < a.length := hj
      obtain ⟨aj, haj⟩ : ∃ v, a[j]? = some v := ⟨a[j], List.getElem?_eq_getElem hja⟩
      have htj : (a.take (j + 1)).reverse = aj :: (a.take j).reverse := by
        rw [List.take_succ, haj]
        simp
      have e11 : levCell a b i j = levAux ((a.take j).reverse) ((b.take i).reverse) :=
        ih j (le_of_lt hib) (le_of_lt hja)
      have e12 : levCell a b i (j + 1) =
          levAux (aj :: (a.take j).reverse) ((b.take i).reverse) := by
        rw [ih (j + 1) (le_of_lt hib) hj, htj]
      have e21 : levCell a b (i + 1) j =
          levAux ((a.take j).reverse) (bi :: (b.take i).reverse) := by
        rw [ihj (le_of_lt hja), hti]
      rw [levCell, hbi, haj, hti, htj, levAux_cons_cons]
      by_cases hc : bi = aj
      · rw [if_pos (by rw [hc]), if_pos hc.symm]
        exact e11
      · rw [if_neg (by simpa using hc), if_neg (fun hcc => hc hcc.symm)]
        rw [e11, e12, e21]
        omega

/-- diagnostics.ts `levenshteinDistance` equals the head-recursive edit
distance of the reversed character lists. -/
theorem levenshteinDistance_eq_levAux (a b : String) :
    levenshteinDistance a b = levAux a.data.reverse b.data.reverse := by
  unfold levenshteinDistance
  rw [levCell_eq_levAux a.data b.data _ _ le_rfl le_rfl, List.take_length, List.take_length]

/-- Claim C8: the edit distance computed by `levenshteinDistance` is
symmetric and satisfies the triangle inequality, for all strings. -/
theorem levenshteinDistance_symm_triangle (a b c : String) :
    levenshteinDistance a b = levenshteinDistance b a ∧
    levenshteinDistance a c ≤ levenshteinDistance a b + levenshteinDistance b c := by
  rw [levenshteinDistance_eq_levAux a b, levenshteinDistance_eq_levAux b a,
    levenshteinDistance_eq_levAux a c, levenshteinDistance_eq_levAux b c]
  exact ⟨levAux_comm _ _, levAux_triangle _ _ _⟩

theorem insertD_perm : ∀ (x : String × Nat) (l : List (String × Nat)), List.Perm (insertD x l) (x :: l)
  | x, [] => .refl _
  | x, y :: ys => by
    by_cases h : x.2 ≤ y.2
    · rw [insertD, if_pos h]
    · rw [insertD, if_neg h]
      exact ((insertD_perm x ys).cons y).trans (List.Perm.swap x y ys)

theorem sortD_perm : ∀ l : List (String × Nat), List.Perm (sortD l) l
  | [] => .refl _
  | x :: xs => (insertD_perm x (sortD xs)).trans ((sortD_perm xs).cons x)

theorem insertD_pairwise :
    ∀ (x : String × Nat) (l : List (String × Nat)),
      l.Pairwise (fun p q => p.2 ≤ q.2) → (insertD x l).Pairwise (fun p q => p.2 ≤ q.2)
  | x, [], _ => by simp [insertD]
  | x, y :: ys, h => by
    by_cases hxy : x.2 ≤ y.2
    · rw [insertD, if_pos hxy]
      refine List.Pairwise.cons ?_ h
      intro z hz
      rcases List.mem_cons.mp hz with rfl | hz2
      · exact hxy
      · exact le_trans hxy (List.rel_of_pairwise_cons h hz2)
    · rw [insertD, if_neg hxy]
      have hyx : y.2 < x.2 := Nat.lt_of_not_le hxy
      refine List.Pairwise.cons ?_ (insertD_pairwise x ys (List.Pairwise.of_cons h))
      intro z hz
      have hz2 := (insertD_perm x ys).mem_iff.mp hz
      rcases List.mem_cons.mp hz2 with rfl | hz3
      · exact le_of_lt hyx
      · exact List.rel_of_pairwise_cons h hz3

theorem sortD_pairwise : ∀ l : List (String × Nat), (sortD l).Pairwise (fun p q => p.2 ≤ q.2)
  | [] => .nil
  | x :: xs => insertD_pairwise x (sortD xs) (sortD_pairwise xs)

/-- Stability of the insertion: the sublist at any fixed distance is
preserved (a new element of that distance goes first). -/
theorem insertD_filter_key :
    ∀ (x : String × Nat) (l : List (String × Nat)) (k : Nat),
      (insertD x l).filter (fun p => p.2 == k) =
        if x.2 = k then x :: l.filter (fun p => p.2 == k)
        else l.filter (fun p => p.2 == k)
  | x, [], k => by
    by_cases h : x.2 = k <;> simp [insertD, h]
  | x, y :: ys, k => by
    by_cases hxy : x.2 ≤ y.2
    · rw [insertD, if_pos hxy]
      by_cases h : x.2 = k <;> simp [List.filter_cons, h]
    · rw [insertD, if_neg hxy]
      have hlt : y.2 < x.2 := Nat.lt_of_not_le hxy
      by_cases h : x.2 = k
      · have hyk : ¬ (y.2 = k) := by omega
        simp [List.filter_cons, h, hyk, insertD_filter_key x ys k]
      · by_cases hyk : y.2 = k
        · simp [List.filter_cons, h, hyk, insertD_filter_key x ys k]
        · simp [List.filter_cons, h, hyk, insertD_filter_key x ys k]

/-- Stability of the sort: the sublist at any fixed distance keeps the
original order. -/
theorem sortD_filter_key :
    ∀ (l : List (String × Nat)) (k : Nat),
      (sortD l).filter (fun p => p.2 == k) = l.filter (fun p => p.2 == k)
  | [], k => rfl
  | x :: xs, k => by
    show (insertD x (sortD xs)).filter (fun p => p.2 == k) = _
    rw [insertD_filter_key x (sortD xs) k]
    by_cases h : x.2 = k <;> simp [List.filter_cons, h, sortD_filter_key xs k]

/-- Core properties of the sort–filter–truncate pipeline of
`findClosestDirectives`, for an arbitrary distance function. -/
theorem closest_core (Df : String → Nat) (valid : List String) (mS maxD : Nat)
    (P S F T : List (String × Nat)) (R : List String)
    (hP : P = valid.map fun n => (n, Df n))
    (hS : S = sortD P)
    (hF : F = S.filter fun d => d.2 ≤ maxD)
    (hT : T = F.take mS)
    (hR : R = T.map fun d => d.1) :
    R.length ≤ mS ∧
    (∀ n ∈ R, n ∈ valid ∧ Df n ≤ maxD) ∧
    R.Pairwise (fun n1 n2 => Df n1 ≤ Df n2) ∧
    (∀ k, ∃ tail, R.filter (fun n => Df n == k) ++ tail =
      valid.filter (fun n => Df n == k)) ∧
    ((valid.filter fun n => Df n ≤ maxD).length ≤ mS →
      ∀ n ∈ valid, Df n ≤ maxD → n ∈ R) := by
  have hmemT : ∀ p ∈ T, p.1 ∈ valid ∧ p.2 = Df p.1 ∧ p.2 ≤ maxD := by
    intro p hp
    rw [hT] at hp
    have hpF := List.mem_of_mem_take hp
    rw [hF] at hpF
    obtain ⟨hpS, hple⟩ := List.mem_filter.mp hpF
    rw [hS] at hpS
    have hpP : p ∈ P := (sortD_perm P).mem_iff.mp hpS
    rw [hP] at hpP
    obtain ⟨n0, hn0, hpe⟩ := List.mem_map.mp hpP
    cases hpe
    exact ⟨hn0, rfl, by simpa using hple⟩
  have hmemR : ∀ n ∈ R, n ∈ valid ∧ Df n ≤ maxD := by
    intro n hn
    rw [hR] at hn
    obtain ⟨p, hpT, hpe⟩ := List.mem_map.mp hn
    obtain ⟨h1, h2, h3⟩ := hmemT p hpT
    cases hpe
    exact ⟨h1, h2 ▸ h3⟩
  refine ⟨?_, hmemR, ?_, ?_, ?_⟩
  · rw [hR, hT]
    simp only [List.length_map, List.length_take]
    exact Nat.min_le_left _ _
  · rw [hR]
    rw [List.pairwise_map]
    have hSp : S.Pairwise (fun p q => p.2 ≤ q.2) := by
      rw [hS]; exact sortD_pairwise P
    have hFp : F.Pairwise (fun p q => p.2 ≤ q.2) := by
      rw [hF]; exact hSp.filter _
    have hTp : T.Pairwise (fun p q => p.2 ≤ q.2) := by
      rw [hT]; exact List.Pairwise.sublist (List.take_sublist mS F) hFp
    refine List.Pairwise.imp_of_mem ?_ hTp
    intro a b ha hb hab
    have h2a := (hmemT a ha).2.1
    have h2b := (hmemT b hb).2.1
    rw [h2a, h2b] at hab
    exact hab
  · intro k
    by_cases hk : k ≤ maxD
    · refine ⟨((F.drop mS).filter (fun p => p.2 == k)).map (fun d => d.1), ?_⟩
      have hA : R.filter (fun n => Df n == k) =
          (T.filter (fun p => p.2 == k)).map (fun d => d.1) := by
        rw [hR, List.filter_map]
        congr 1
        apply List.filter_congr
        intro p hp
        have h2 := (hmemT p hp).2.1
        show (Df p.1 == k) = (p.2 == k)
        rw [h2]
      have hB : T.filter (fun p => p.2 == k) ++ (F.drop mS).filter (fun p => p.2 == k) =
          F.filter (fun p => p.2 == k) := by
        rw [hT, ← List.filter_append, List.take_append_drop]
      have hC : F.filter (fun p => p.2 == k) = S.filter (fun p => p.2 == k) := by
        rw [hF, List.filter_filter]
        apply List.filter_congr
        intro p hp
        by_cases hpk : p.2 = k
        · simp [hpk, hk]
        · simp [hpk]
      have hD2 : S.filter (fun p => p.2 == k) = P.filter (fun p => p.2 == k) := by
        rw [hS]; exact sortD_filter_key P k
      have hE : (P.filter (fun p => p.2 == k)).map (fun d => d.1) =
          valid.filter (fun n => Df n == k) := by
        rw [hP, List.filter_map, List.map_map]
        show List.map (fun n => n) (valid.filter fun n => Df n == k) =
          valid.filter fun n => Df n == k
        exact List.map_id' _
      rw [hA, ← List.map_append, hB, hC, hD2, hE]
    · refine ⟨valid.filter (fun n => Df n == k), ?_⟩
      have hnil : R.filter (fun n => Df n == k) = [] := by
        rw [List.filter_eq_nil_iff]
        intro n hn
        have h2 := (hmemR n hn).2
        simp only [beq_iff_eq]
        omega
      rw [hnil]
      simp
  · intro hlen n hn hDn
    have hlenF : F.length = (valid.filter fun n2 => Df n2 ≤ maxD).length := by
      have hperm := (sortD_perm P).filter (fun d => decide (d.2 ≤ maxD))
      rw [hF, hS]
      rw [hperm.length_eq, hP, List.filter_map]
      rw [List.length_map]
      rfl
    have hTF : T = F := by
      rw [hT]
      exact List.take_of_length_le (by omega)
    have hpP : (n, Df n) ∈ P := by
      rw [hP]
      exact List.mem_map_of_mem _ hn
    have hpS : (n, Df n) ∈ S := by
      rw [hS]
      exact (sortD_perm P).mem_iff.mpr hpP
    have hpF : (n, Df n) ∈ F := by
      rw [hF]
      exact List.mem_filter.mpr ⟨hpS, by simpa using hDn⟩
    rw [hR, hTF]
    exact List.mem_map.mpr ⟨(n, Df n), hpF, rfl⟩

/-- Claim C6: for any input and vocabulary, the suggestion engine returns at
most `maxSuggestions` names; every returned name is a vocabulary name whose
edit distance to the input is at most
`max 2 (min 3 (ceil (input.length * 0.2)))` (the float expression is exact:
`(input.length + 4) / 5` in natural division); the returned names are sorted
ascending by distance; among names of equal distance the original vocabulary
order is kept (the returned names of any fixed distance are a prefix of the
vocabulary's names of that distance); and when the truncation does not cut
(at most `maxSuggestions` names lie within the threshold) every
within-threshold vocabulary name is returned. -/
theorem findClosestDirectives_spec (input : String) (validDirectives : List String)
    (maxSuggestions : Nat) :
    (findClosestDirectives input validDirectives maxSuggestions).length ≤ maxSuggestions ∧
    (∀ n ∈ findClosestDirectives input validDirectives maxSuggestions,
      n ∈ validDirectives ∧
      levenshteinDistance input n ≤ max 2 (min 3 ((input.length + 4) / 5))) ∧
    (findClosestDirectives input validDirectives maxSuggestions).Pairwise
      (fun n1 n2 => levenshteinDistance input n1 ≤ levenshteinDistance input n2) ∧
    (∀ k, ∃ tail,
      (findClosestDirectives input validDirectives maxSuggestions).filter
          (fun n => levenshteinDistance input n == k) ++ tail =
        validDirectives.filter (fun n => levenshteinDistance input n == k)) ∧
    ((validDirectives.filter fun n =>
        levenshteinDistance input n ≤ max 2 (min 3 ((input.length + 4) / 5))).length ≤
        maxSuggestions →
      ∀ n ∈ validDirectives,
        levenshteinDistance input n ≤ max 2 (min 3 ((input.length + 4) / 5)) →
        n ∈ findClosestDirectives input validDirectives maxSuggestions) := by
  have h := closest_core (fun n => levenshteinDistance input n) validDirectives maxSuggestions
    (max 2 (min 3 ((input.length + 4) / 5)))
    (validDirectives.map fun n => (n, levenshteinDistance input n)) _ _ _ _
    rfl rfl rfl rfl rfl
  exact h

/-- Witness for findClosestDirectives_spec at a concrete input: with input "usx",
vocabulary ["usa", "zzzzzzzz"] and maxSuggestions 3, the candidate "usa" has
distance 1, within the threshold 2, no truncation occurs, and the completeness
clause places "usa" in the suggestion list. -/
theorem findClosestDirectives_spec_witness :
    "usa" ∈ findClosestDirectives "usx" ["usa", "zzzzzzzz"] 3 := by
  have h := findClosestDirectives_spec "usx" ["usa", "zzzzzzzz"] 3
  have hd1 : levenshteinDistance "usx" "usa" = 1 := by
    simp [levenshteinDistance, levCell]
  have hd2 : levenshteinDistance "usx" "zzzzzzzz" = 8 := by
    simp [levenshteinDistance, levCell]
  refine h.2.2.2.2 ?_ "usa" (by simp) ?_
  · simp [List.filter, hd1, hd2]
  · simp [hd1]
